import Mathlib

/-!
# Verification of the `word-search` placement engine

Shallow embedding of `src/word-search.ts` (class `WordSearch`).  JavaScript
strings are modelled as `List Char`; a grid cell (`''` or a single letter)
is modelled as `Option Char` (`none` = the empty string `''`).  The class
instance is modelled as the structure `WordSearch`; every method becomes a
Lean function of the same name taking the state explicitly.  The ambient
random source (`Math.random`) is modelled by explicit oracle arguments:
the list of sampled `(direction, position)` pairs for each word, the letter
picked for each blank cell, and the order produced by `shuffleArray`
(whose implementation, `./utils`, is not part of the sources; the spec only
fixes that it is a permutation of its input).
-/

/-- A JavaScript string, modelled character by character. -/
abbrev Word := List Char

/-- `Position` from `types.ts`: an (x, y) integer coordinate pair.
All positions produced by the engine have non-negative coordinates, so we
use `Nat` (the `pos.x >= 0` half of `isValidPosition` is then automatic). -/
structure Position where
  x : Nat
  y : Nat
deriving DecidableEq, Repr

/-- `Direction` from `types.ts`. -/
inductive Direction where
  | horizontal
  | vertical
  | diagonal
deriving DecidableEq, Repr

/-- A grid cell: `none` models the empty string `''`, `some c` a single
uppercase letter. -/
abbrev Cell := Option Char

/-- The grid `string[][]`, row-major: `grid[x][y]`. -/
abbrev Grid := List (List Cell)

/-- The placement registry `Map<string, Position[]>`, kept in insertion
order as JavaScript `Map` iteration does. -/
abbrev Registry := List (Word × List Position)

/-- The `WordSearch` class state (its private fields). -/
structure WordSearch where
  size : Nat
  grid : Grid
  words : List Word
  positions : Registry
  allowDiagonal : Bool
  fillBlanks : Bool
deriving DecidableEq, Repr

/-- `WordSearchOptions` from `types.ts`. -/
structure WordSearchOptions where
  size : Option Nat
  words : List Word
  allowDiagonal : Option Bool
  fillBlanks : Option Bool

/-- Reading `grid[pos.x][pos.y]` in a truthiness context: `none` stands for
both the empty cell `''` and an out-of-bounds read (`undefined`), which the
source code distinguishes nowhere except in `import` (see `cellAtJS`). -/
def cellAt (grid : Grid) (pos : Position) : Cell :=
  ((grid.get? pos.x).bind (fun row => row.get? pos.y)).join

/-- Reading `grid[pos.x][pos.y]` as a JavaScript value where `undefined`
(out of bounds, outer `none`) and `''` (`some none`) are distinct; used by
`import`, whose `!==` comparison tells them apart. -/
def cellAtJS (grid : Grid) (pos : Position) : Option Cell :=
  (grid.get? pos.x).bind (fun row => row.get? pos.y)

/-- Writing `this.grid[pos.x][pos.y] = c`.  Out-of-range writes do not
occur in the source (every write is guarded by `canPlaceWordAt`, which
checks `isValidPosition`); `List.set` is a no-op there. -/
def gridSet (grid : Grid) (pos : Position) (c : Cell) : Grid :=
  grid.set pos.x ((grid.getD pos.x []).set pos.y c)

/-- `getNextPosition` (word-search.ts line 253): the step function of each
direction.  (The source's `default` branch is unreachable: `Direction` is
exhaustive.) -/
def getNextPosition (start : Position) (index : Nat) : Direction → Position
  | .horizontal => ⟨start.x, start.y + index⟩
  | .vertical => ⟨start.x + index, start.y⟩
  | .diagonal => ⟨start.x + index, start.y + index⟩

/-- `isValidPosition` (line 319): `pos.x >= 0 && pos.x < size && pos.y >= 0
&& pos.y < size`; the non-negativity conjuncts are automatic over `Nat`. -/
def isValidPosition (size : Nat) (pos : Position) : Bool :=
  decide (pos.x < size) && decide (pos.y < size)

/-- The cell test of `canPlaceWordAt` (line 278):
`currentLetter && currentLetter !== word[i]` rejects, i.e. a cell is fine
iff it is falsy (empty/undefined) or holds exactly the wanted letter. -/
def letterOk (grid : Grid) (pos : Position) (c : Char) : Bool :=
  match cellAt grid pos with
  | none => true
  | some cur => cur == c

/-- The loop of `canPlaceWordAt` (lines 272-281), from letter index `i`:
each remaining letter's cell must be in bounds and empty-or-matching. -/
def canPlaceFrom (size : Nat) (grid : Grid) (start : Position)
    (dir : Direction) : Nat → Word → Bool
  | _, [] => true
  | i, c :: rest =>
    let pos := getNextPosition start i dir
    isValidPosition size pos && letterOk grid pos c &&
      canPlaceFrom size grid start dir (i + 1) rest

/-- `canPlaceWordAt` (line 269). -/
def canPlaceWordAt (size : Nat) (grid : Grid) (word : Word)
    (start : Position) (dir : Direction) : Bool :=
  canPlaceFrom size grid start dir 0 word

/-- `calculatePlacementScore` (line 227): count the indices whose cell is
valid and currently empty (`=== ''`). -/
def calculatePlacementScore (size : Nat) (grid : Grid) (word : Word)
    (start : Position) (dir : Direction) : Nat :=
  (List.range word.length).countP (fun i =>
    let pos := getNextPosition start i dir
    isValidPosition size pos && (cellAt grid pos).isNone)

/-- `getAvailableDirections` (line 244). -/
def getAvailableDirections (allowDiagonal : Bool) : List Direction :=
  [Direction.horizontal, Direction.vertical] ++
    (if allowDiagonal then [Direction.diagonal] else [])

/-- The write loop of `insertWord` (lines 292-296), from letter index `i`:
returns the updated grid and the ordered list of written positions. -/
def insertCells (grid : Grid) (start : Position) (dir : Direction) :
    Nat → Word → Grid × List Position
  | _, [] => (grid, [])
  | i, c :: rest =>
    let pos := getNextPosition start i dir
    let r := insertCells (gridSet grid pos (some c)) start dir (i + 1) rest
    (r.1, pos :: r.2)

/-- `Map.prototype.set`: replace the value in place when the key exists,
otherwise append the entry (JavaScript `Map` keeps insertion order). -/
def mapSet (m : Registry) (k : Word) (v : List Position) : Registry :=
  if m.any (fun e => e.1 == k) then
    m.map (fun e => if e.1 == k then (k, v) else e)
  else
    m ++ [(k, v)]

/-- `Map.prototype.get`, as used by `getWordPositions`/`hasWord`. -/
def mapGet (m : Registry) (k : Word) : Option (List Position) :=
  (m.find? (fun e => e.1 == k)).map (fun e => e.2)

/-- `insertWord` (line 289): write the letters and record the positions
under the word's key. -/
def insertWord (ws : WordSearch) (word : Word) (start : Position)
    (dir : Direction) : WordSearch :=
  let r := insertCells ws.grid start dir 0 word
  { ws with grid := r.1, positions := mapSet ws.positions word r.2 }

/-- `createEmptyGrid` (line 180). -/
def createEmptyGrid (size : Nat) : Grid :=
  List.replicate size (List.replicate size none)

/-- `reset` (line 144). -/
def reset (ws : WordSearch) : WordSearch :=
  { ws with grid := createEmptyGrid ws.size, positions := [] }

/-- The candidate-selection loop of `placeWordWithBestFit` (lines 198-213).
`attempts` is the list of `(direction, position)` pairs drawn from
`Math.random` (300 of them in the source).  The accumulator is `none`
while `bestScore = -Infinity` (any score beats it) and
`some (score, pos, dir)` afterwards; a candidate is taken only when
`score > bestScore && canPlaceWordAt(...)`. -/
def bestCandidate (size : Nat) (grid : Grid) (word : Word) :
    List (Direction × Position) → Option (Nat × Position × Direction) →
      Option (Nat × Position × Direction)
  | [], best => best
  | (dir, pos) :: rest, best =>
    let score := calculatePlacementScore size grid word pos dir
    let better := match best with
      | none => true
      | some b => decide (b.1 < score)
    if better && canPlaceWordAt size grid word pos dir then
      bestCandidate size grid word rest (some (score, pos, dir))
    else
      bestCandidate size grid word rest best

/-- The attempt budget of `placeWordWithBestFit` (line 195). -/
def maxAttempts : Nat := 300

/-- `placeWordWithBestFit` (line 189): commit the best feasible sampled
candidate, or fail (`return false`, here `none`). -/
def placeWordWithBestFit (ws : WordSearch) (word : Word)
    (attempts : List (Direction × Position)) : Option WordSearch :=
  match bestCandidate ws.size ws.grid word attempts none with
  | some b => some (insertWord ws word b.2.1 b.2.2)
  | none => none

/-- The letter the fill phase writes into the blank at `(x, y)`:
`letters[Math.floor(Math.random() * letters.length)]`, the random draw
modelled by the oracle `pick` (always a valid index, hence `Fin 26`). -/
def fillLetters : List Char := "ABCDEFGHIJKLMNOPQRSTUVWXYZ".toList

/-- One row of `fillEmptySpaces` (lines 307-313), from column `y`:
only falsy (empty) cells are overwritten. -/
def fillRowFrom (pick : Nat → Nat → Fin 26) (x : Nat) :
    Nat → List Cell → List Cell
  | _, [] => []
  | y, none :: rest =>
    some (fillLetters.getD (pick x y).val 'A') :: fillRowFrom pick x (y + 1) rest
  | y, some c :: rest => some c :: fillRowFrom pick x (y + 1) rest

/-- The row loop of `fillEmptySpaces`, from row `x`. -/
def fillGridFrom (pick : Nat → Nat → Fin 26) : Nat → Grid → Grid
  | _, [] => []
  | x, row :: rest => fillRowFrom pick x 0 row :: fillGridFrom pick (x + 1) rest

/-- `fillEmptySpaces` (line 304). -/
def fillEmptySpaces (ws : WordSearch) (pick : Nat → Nat → Fin 26) : WordSearch :=
  { ws with grid := fillGridFrom pick 0 ws.grid }

/-- The error an aborted `generate` throws (`throw new Error(...)`,
lines 32 and 40). -/
inductive GenError where
  | emptyWords
  | placementFailure (word : Word)
deriving DecidableEq, Repr

/-- The per-word loop of `generate` (lines 37-42); `k` indexes into the
oracle of sampled attempt lists. -/
def placeAll (attempts : Nat → List (Direction × Position)) :
    WordSearch → Nat → List Word → Except GenError WordSearch
  | ws, _, [] => .ok ws
  | ws, k, w :: rest =>
    match placeWordWithBestFit ws w (attempts k) with
    | some ws1 => placeAll attempts ws1 (k + 1) rest
    | none => .error (.placementFailure w)

/-- `generate` (line 28).  `shuffled` stands for
`shuffleArray([...this.words])`; `shuffleArray` lives in `./utils`, which
is not among the sources — the spec fixes only that it permutes its input,
so theorems take the permutation as a hypothesis.  `attempts` and `pick`
are the random oracles of the placement loop and the fill phase. -/
def generate (ws : WordSearch) (shuffled : List Word)
    (attempts : Nat → List (Direction × Position))
    (pick : Nat → Nat → Fin 26) : Except GenError WordSearch :=
  let ws0 := reset ws
  if ws0.words.length = 0 then
    .error .emptyWords
  else
    match placeAll attempts ws0 0 shuffled with
    | .error e => .error e
    | .ok ws1 => .ok (if ws1.fillBlanks then fillEmptySpaces ws1 pick else ws1)

/-- `word.toUpperCase()`.  `Char.toUpper` matches the JavaScript behaviour
on the ASCII range, to which validation confines every accepted word. -/
def toUpperWord (w : Word) : Word := w.map Char.toUpper

/-- `calculateGridSize` (line 152): `Math.max(Math.ceil(total / 5), 10)`;
`Math.ceil` of an exact natural division is `(total + 4) / 5` over `Nat`. -/
def calculateGridSize (words : List Word) : Nat :=
  let totalWordLength := (words.map List.length).sum
  max ((totalWordLength + 4) / 5) 10

/-- The character class of the validation regex `/^[A-Za-z]+$/`. -/
def isAlphaChar (c : Char) : Bool :=
  (decide ('A' ≤ c) && decide (c ≤ 'Z')) || (decide ('a' ≤ c) && decide (c ≤ 'z'))

/-- `/^[A-Za-z]+$/.test(word)` (line 171): nonempty, all letters. -/
def matchesAlphaPattern (w : Word) : Bool :=
  !w.isEmpty && w.all isAlphaChar

/-- The errors `validateOptions` throws (lines 163, 168, 172). -/
inductive ConfigError where
  | gridSizeMustBePositive
  | wordLongerThanGrid (w : Word)
  | invalidCharacters (w : Word)
deriving DecidableEq, Repr

/-- The per-word checks of `validateOptions`, in source order: length
first, then the character pattern. -/
def wordError (size : Nat) (w : Word) : Option ConfigError :=
  if w.length > size then some (.wordLongerThanGrid w)
  else if !matchesAlphaPattern w then some (.invalidCharacters w)
  else none

/-- `validateOptions` (line 161): fail on `size < 1`, then on the first
offending word.  Note: the method never checks that `words` is empty. -/
def validateOptions (size : Nat) (words : List Word) : Option ConfigError :=
  if size < 1 then some .gridSizeMustBePositive
  else words.findSome? (wordError size)

/-- The `WordSearch` constructor (line 12): uppercase the words, default
`allowDiagonal`/`fillBlanks`, derive the size when absent, validate, and
start with an empty grid and registry. -/
def WordSearch.make (options : WordSearchOptions) : Except ConfigError WordSearch :=
  let words := options.words.map toUpperWord
  let allowDiagonal := options.allowDiagonal.getD false
  let fillBlanks := options.fillBlanks.getD true
  let size := options.size.getD (calculateGridSize words)
  match validateOptions size words with
  | some e => .error e
  | none => .ok {
      size := size, grid := createEmptyGrid size, words := words,
      positions := [], allowDiagonal := allowDiagonal, fillBlanks := fillBlanks }

/-- `getGrid` (line 75): `this.grid.map(row => [...row])` — a fresh array
of fresh rows, value-equal to the grid. -/
def getGrid (ws : WordSearch) : Grid :=
  ws.grid.map (fun row => row.map (fun c => c))

/-- `getPositions` (line 68): `new Map(this.positions)` — a fresh map with
the same entries (reference sharing is studied in the heap model below). -/
def getPositions (ws : WordSearch) : Registry :=
  ws.positions.map (fun e => e)

/-- `getWordPositions` (line 61): `this.positions.get(word.toUpperCase()) || null`
(a stored positions array is truthy, so `|| null` only converts a missing
key to `null`). -/
def getWordPositions (ws : WordSearch) (word : Word) : Option (List Position) :=
  mapGet ws.positions (toUpperWord word)

/-- `hasWord` (line 54). -/
def hasWord (ws : WordSearch) (word : Word) : Bool :=
  (mapGet ws.positions (toUpperWord word)).isSome

/-- `getGridSize` (line 82). -/
def getGridSize (ws : WordSearch) : Nat := ws.grid.length

/-- The record returned by `export` (line 103). -/
structure ExportData where
  size : Nat
  grid : Grid
  positions : Registry
deriving DecidableEq, Repr

/-- `export` (line 103): size, a row-copied grid, a fresh map. -/
def exportData (ws : WordSearch) : ExportData :=
  { size := getGridSize ws,
    grid := ws.grid.map (fun row => row.map (fun c => c)),
    positions := ws.positions.map (fun e => e) }

/-- The failures of `import` (lines 120, 135, 138), plus the JavaScript
`TypeError` that `grid[pos.x][pos.y]` raises when `grid[pos.x]` is
`undefined` (row index out of range). -/
inductive ImportError where
  | invalidGridFormat
  | invalidGridDimensions
  | mismatchedPlacements
  | typeErrorUndefinedRow
deriving DecidableEq, Repr

/-- `validateGrid` (line 133).  The `Array.isArray` structure checks hold
by the typing of `Grid`; the dimension check is lines 137-139. -/
def validateGrid (size : Nat) (grid : Grid) : Option ImportError :=
  if grid.length ≠ size || grid.any (fun row => row.length ≠ size) then
    some .invalidGridDimensions
  else none

/-- The strict comparison `grid[pos.x][pos.y] !== word[index]` of `import`
(line 119), on JavaScript values: left is `undefined` (`none`), `''`
(`some none`) or a letter; right is `undefined` (`none`) or a letter.
`undefined === undefined`; `''` differs from everything but itself. -/
def jsStrEq : Option Cell → Option Char → Bool
  | none, none => true
  | none, some _ => false
  | some none, _ => false
  | some (some _), none => false
  | some (some c), some w => c == w

/-- The inner `positions.forEach((pos, index) => ...)` of `import`
(lines 118-122), from `index`.  Reading `grid[pos.x][pos.y]` first
dereferences `grid[pos.x]`: if that row is `undefined` the JavaScript
engine raises a `TypeError` before any comparison. -/
def importEntryCheck (grid : Grid) (word : Word) :
    Nat → List Position → Option ImportError
  | _, [] => none
  | index, pos :: rest =>
    match grid.get? pos.x with
    | none => some .typeErrorUndefinedRow
    | some row =>
      if jsStrEq (row.get? pos.y) (word.get? index) then
        importEntryCheck grid word (index + 1) rest
      else some .mismatchedPlacements

/-- The outer `positions.forEach((positions, word) => ...)` of `import`
(line 117); a throw inside `forEach` propagates out. -/
def importCheckAll (grid : Grid) : Registry → Option ImportError
  | [] => none
  | (w, ps) :: rest =>
    match importEntryCheck grid w 0 ps with
    | some e => some e
    | none => importCheckAll grid rest

/-- `import` (line 114): validate the grid shape, check every registry
entry against the supplied grid, then adopt size, a row-copied grid and a
fresh map of the supplied registry. -/
def importGrid (ws : WordSearch) (grid : Grid) (positions : Registry) :
    Except ImportError WordSearch :=
  match validateGrid ws.size grid with
  | some e => .error e
  | none =>
    match importCheckAll grid positions with
    | some e => .error e
    | none => .ok { ws with
        size := grid.length,
        grid := grid.map (fun row => row.map (fun c => c)),
        positions := positions.map (fun e => e) }

/-- Tracing a list of positions through a grid: the letters read in order,
`none` if some cell is empty or missing.  This is the spec's notion of
"reading the grid cells at that word's recorded positions". -/
def traceWord (grid : Grid) : List Position → Option Word
  | [] => some []
  | p :: rest =>
    match cellAt grid p, traceWord grid rest with
    | some c, some w => some (c :: w)
    | _, _ => none

/-!
## A heap model for the copy/aliasing behaviour of the queries

JavaScript arrays are mutable references.  To settle what the queries
share with the engine, grid rows and per-word position arrays live in an
explicit heap, and the engine holds references into it; the query methods
are re-read from the source at this level.  `readGrid`/`readPositions`
are the engine-observable values; a caller mutation is a `writeRow` /
`writePosArr` on a reference a query handed out.
-/

/-- The heap: `rowArrays` holds the `string[]` rows, `posArrays` the
`Position[]` arrays stored in the registry map. -/
structure JSHeap where
  rowArrays : List (List Cell)
  posArrays : List (List Position)
deriving DecidableEq, Repr

/-- The engine state at the reference level: `grid` is an array of row
references, `positions` maps each word to a reference to its array. -/
structure WordSearchRefState where
  size : Nat
  gridRows : List Nat
  positionsMap : List (Word × Nat)
deriving DecidableEq, Repr

/-- Dereference a row. -/
def readRow (h : JSHeap) (r : Nat) : List Cell := h.rowArrays.getD r []

/-- Dereference a positions array. -/
def readPosArr (h : JSHeap) (r : Nat) : List Position := h.posArrays.getD r []

/-- The grid value the engine sees through its row references. -/
def readGrid (st : WordSearchRefState) (h : JSHeap) : Grid :=
  st.gridRows.map (fun r => readRow h r)

/-- The registry value the engine sees through its array references. -/
def readPositions (st : WordSearchRefState) (h : JSHeap) :
    List (Word × List Position) :=
  st.positionsMap.map (fun e => (e.1, readPosArr h e.2))

/-- A caller mutates a row array it was handed (e.g. `gridCopy[0][0] = x`
or a whole-row overwrite). -/
def writeRow (h : JSHeap) (r : Nat) (v : List Cell) : JSHeap :=
  { h with rowArrays := h.rowArrays.set r v }

/-- A caller mutates a positions array it was handed (e.g. `arr.push(p)`
or `arr.length = 0`). -/
def writePosArr (h : JSHeap) (r : Nat) (v : List Position) : JSHeap :=
  { h with posArrays := h.posArrays.set r v }

/-- Allocate fresh row arrays holding the given values, returning their
references; this is what `map(row => [...row])` does. -/
def allocRows (h : JSHeap) : List (List Cell) → List Nat × JSHeap
  | [] => ([], h)
  | v :: rest =>
    let r := h.rowArrays.length
    let res := allocRows { h with rowArrays := h.rowArrays ++ [v] } rest
    (r :: res.1, res.2)

/-- `getGrid` (line 75) at the heap level:
`this.grid.map(row => [...row])` allocates a fresh array per row (the new
outer array is a plain value here); the engine's own rows are not handed
out. -/
def getGridRef (st : WordSearchRefState) (h : JSHeap) : List Nat × JSHeap :=
  allocRows h (readGrid st h)

/-- `getWordPositions` (line 61) at the heap level:
`this.positions.get(word.toUpperCase()) || null` returns the engine's own
array reference — no copy. -/
def getWordPositionsRef (st : WordSearchRefState) (word : Word) : Option Nat :=
  ((st.positionsMap.find? (fun e => e.1 == toUpperWord word)).map (fun e => e.2))

/-- `getPositions` (line 68) at the heap level: `new Map(this.positions)`
is a fresh map whose entries hold the same array references. -/
def getPositionsRef (st : WordSearchRefState) : List (Word × Nat) :=
  st.positionsMap.map (fun e => e)

/-!
## Basic lemmas about the grid
-/

/-- Well-formedness of the engine grid: `size` rows of `size` cells. -/
def gridWF (size : Nat) (grid : Grid) : Prop :=
  grid.length = size ∧ ∀ row ∈ grid, row.length = size

instance (size : Nat) (grid : Grid) : Decidable (gridWF size grid) := by
  unfold gridWF; infer_instance

theorem gridWF_createEmptyGrid (size : Nat) : gridWF size (createEmptyGrid size) := by
  constructor
  · simp [createEmptyGrid]
  · intro row hrow
    simp only [createEmptyGrid] at hrow
    rw [List.eq_of_mem_replicate hrow]
    simp

theorem cellAt_eq (grid : Grid) (q : Position) :
    cellAt grid q = (((grid[q.x]?).bind (fun row => row[q.y]?)).join) := by
  unfold cellAt
  simp [List.get?_eq_getElem?]

theorem mem_of_getElem?_eq_some {α : Type} {l : List α} {n : Nat} {a : α}
    (h : l[n]? = some a) : a ∈ l :=
  List.get?_mem (by rw [List.get?_eq_getElem?]; exact h)

theorem cellAt_eq_some_iff {grid : Grid} {q : Position} {c : Char} :
    cellAt grid q = some c ↔
      ∃ row, grid[q.x]? = some row ∧ row[q.y]? = some (some c) := by
  rw [cellAt_eq]
  cases hx : grid[q.x]? with
  | none => simp
  | some row =>
    cases hy : row[q.y]? with
    | none => simp [hy]
    | some cell => cases cell <;> simp [hy]

theorem length_gridSet (grid : Grid) (p : Position) (c : Cell) :
    (gridSet grid p c).length = grid.length := by
  simp [gridSet]

theorem getD_eq_of_getElem? {l : List (List Cell)} {n : Nat} {r : List Cell}
    (h : l[n]? = some r) : l.getD n [] = r := by
  rw [List.getD_eq_getElem?_getD, h]
  rfl

theorem cellAt_gridSet_self {size : Nat} {grid : Grid} {p : Position}
    (hwf : gridWF size grid) (hv : isValidPosition size p = true) (c : Cell) :
    cellAt (gridSet grid p c) p = c := by
  obtain ⟨hlen, hrows⟩ := hwf
  simp only [isValidPosition, Bool.and_eq_true, decide_eq_true_eq] at hv
  have hx : p.x < grid.length := by omega
  have hrow : grid[p.x]? = some (grid.getD p.x []) := by
    cases h : grid[p.x]? with
    | none => exact absurd (List.getElem?_eq_none_iff.mp h) (by omega)
    | some r => rw [getD_eq_of_getElem? h]
  have hrowlen : (grid.getD p.x []).length = size :=
    hrows _ (mem_of_getElem?_eq_some hrow)
  rw [cellAt_eq]
  unfold gridSet
  rw [List.getElem?_set_self (by omega)]
  simp only [Option.some_bind]
  rw [List.getElem?_set_self (by omega)]
  cases c <;> rfl

theorem cellAt_gridSet_ne {grid : Grid} {p q : Position} (hne : p ≠ q) (c : Cell) :
    cellAt (gridSet grid p c) q = cellAt grid q := by
  obtain ⟨px, py⟩ := p
  obtain ⟨qx, qy⟩ := q
  rw [cellAt_eq, cellAt_eq]
  unfold gridSet
  simp only [List.getElem?_set]
  by_cases hx : px = qx
  · have hy : py ≠ qy := fun h => hne (by simp [hx, h])
    subst hx
    simp only [if_pos rfl]
    by_cases hlt : px < grid.length
    · simp only [if_pos hlt]
      have hrow : grid[px]? = some (grid.getD px []) := by
        cases h : grid[px]? with
        | none => exact absurd (List.getElem?_eq_none_iff.mp h) (by omega)
        | some r => rw [getD_eq_of_getElem? h]
      rw [hrow]
      simp only [ite_true, Option.some_bind]
      rw [List.getElem?_set_ne hy]
    · simp only [if_neg hlt]
      have hnone : grid[px]? = none := List.getElem?_eq_none (by omega)
      rw [hnone]
      simp
  · simp only [if_neg hx]

theorem gridWF_gridSet {size : Nat} {grid : Grid} {p : Position} {c : Cell}
    (hwf : gridWF size grid) : gridWF size (gridSet grid p c) := by
  obtain ⟨hlen, hrows⟩ := hwf
  constructor
  · rw [length_gridSet]; exact hlen
  · intro row hrow
    rcases List.mem_iff_getElem?.mp hrow with ⟨n, hn⟩
    unfold gridSet at hn
    rw [List.getElem?_set] at hn
    by_cases hx : p.x = n
    · simp only [hx, if_pos rfl] at hn
      by_cases hlt : n < grid.length
      · simp only [if_pos hlt] at hn
        cases hn
        rw [List.length_set]
        subst hx
        cases h : grid[p.x]? with
        | none => exact absurd (List.getElem?_eq_none_iff.mp h) (by omega)
        | some r =>
          rw [getD_eq_of_getElem? h]
          exact hrows r (mem_of_getElem?_eq_some h)
      · simp [if_neg hlt] at hn
    · simp only [if_neg hx] at hn
      exact hrows row (mem_of_getElem?_eq_some hn)

/-!
## The step function and the feasibility test
-/

theorem getNextPosition_inj {start : Position} {dir : Direction} {i j : Nat}
    (h : getNextPosition start i dir = getNextPosition start j dir) : i = j := by
  cases dir <;>
    (simp only [getNextPosition, Position.mk.injEq] at h; omega)

theorem letterOk_iff {grid : Grid} {pos : Position} {c : Char} :
    letterOk grid pos c = true ↔
      cellAt grid pos = none ∨ cellAt grid pos = some c := by
  unfold letterOk
  cases h : cellAt grid pos with
  | none => simp
  | some cur => simp [beq_iff_eq]

/-- The loop of `canPlaceWordAt`, characterized pointwise: from index `i`,
every remaining letter `j` must land on a valid cell that is empty or
already holds that letter. -/
theorem canPlaceFrom_iff {size : Nat} {grid : Grid} {start : Position}
    {dir : Direction} {i : Nat} {w : Word} :
    canPlaceFrom size grid start dir i w = true ↔
      ∀ j, j < w.length →
        isValidPosition size (getNextPosition start (i + j) dir) = true ∧
          (cellAt grid (getNextPosition start (i + j) dir) = none ∨
            cellAt grid (getNextPosition start (i + j) dir) = w.get? j) := by
  induction w generalizing i with
  | nil => simp [canPlaceFrom]
  | cons c rest ih =>
    simp only [canPlaceFrom, Bool.and_eq_true]
    constructor
    · rintro ⟨⟨hv, hok⟩, hrest⟩ j hj
      cases j with
      | zero =>
        refine ⟨by simpa using hv, ?_⟩
        have := letterOk_iff.mp hok
        simpa using this
      | succ j =>
        have := (ih (i := i + 1)).mp hrest j (by simpa using hj)
        have harith : i + 1 + j = i + (j + 1) := by omega
        rw [harith] at this
        simpa using this
    · intro h
      refine ⟨⟨?_, ?_⟩, ?_⟩
      · simpa using (h 0 (by simp)).1
      · apply letterOk_iff.mpr
        simpa using (h 0 (by simp)).2
      · apply (ih (i := i + 1)).mpr
        intro j hj
        have := h (j + 1) (by simp only [List.length_cons]; omega)
        have harith : i + (j + 1) = i + 1 + j := by omega
        rw [harith] at this
        simpa using this

/-- Writing a letter at the index-`i` cell of a placement does not disturb
the feasibility of the remaining letters (their cells are distinct). -/
theorem canPlaceFrom_gridSet {size : Nat} {grid : Grid} {start : Position}
    {dir : Direction} {i : Nat} {rest : Word} {c : Cell}
    (h : canPlaceFrom size grid start dir (i + 1) rest = true) :
    canPlaceFrom size (gridSet grid (getNextPosition start i dir) c) start dir
      (i + 1) rest = true := by
  rw [canPlaceFrom_iff] at h ⊢
  intro j hj
  have hne : getNextPosition start i dir ≠ getNextPosition start (i + 1 + j) dir := by
    intro he
    have := getNextPosition_inj he
    omega
  rw [cellAt_gridSet_ne hne]
  exact h j hj

/-!
## What `insertWord` does to the grid
-/

theorem insertCells_snd (grid : Grid) (start : Position) (dir : Direction)
    (i : Nat) (w : Word) :
    (insertCells grid start dir i w).2 =
      (List.range w.length).map (fun j => getNextPosition start (i + j) dir) := by
  induction w generalizing grid i with
  | nil => simp [insertCells]
  | cons c rest ih =>
    simp only [insertCells, ih, List.length_cons, List.range_succ_eq_map,
      List.map_cons, List.map_map, List.cons.injEq]
    refine ⟨by simp, ?_⟩
    apply List.map_congr_left
    intro j hj
    simp only [Function.comp_apply]
    congr 1
    omega

theorem insertCells_length_snd (grid : Grid) (start : Position)
    (dir : Direction) (i : Nat) (w : Word) :
    (insertCells grid start dir i w).2.length = w.length := by
  rw [insertCells_snd]
  simp

/-- The effect of the write loop of `insertWord`, given feasibility:
well-formedness is kept, occupied cells keep their letter (overlaps agree),
cells off the placement are untouched, and afterwards the cell of letter
`j` holds exactly that letter. -/
theorem insertCells_spec {size : Nat} {grid : Grid} {start : Position}
    {dir : Direction} {i : Nat} {w : Word}
    (hwf : gridWF size grid)
    (hcan : canPlaceFrom size grid start dir i w = true) :
    gridWF size (insertCells grid start dir i w).1 ∧
    (∀ q a, cellAt grid q = some a →
      cellAt (insertCells grid start dir i w).1 q = some a) ∧
    (∀ q, (∀ j, j < w.length → q ≠ getNextPosition start (i + j) dir) →
      cellAt (insertCells grid start dir i w).1 q = cellAt grid q) ∧
    (∀ j c, w.get? j = some c →
      cellAt (insertCells grid start dir i w).1
        (getNextPosition start (i + j) dir) = some c) := by
  induction w generalizing grid i with
  | nil =>
    refine ⟨hwf, ?_, ?_, ?_⟩
    · intro q a h; exact h
    · intro q h; rfl
    · intro j c h; simp at h
  | cons c rest ih =>
    simp only [canPlaceFrom, Bool.and_eq_true] at hcan
    obtain ⟨⟨hv, hok⟩, hrest⟩ := hcan
    have hwf1 : gridWF size (gridSet grid (getNextPosition start i dir) (some c)) :=
      gridWF_gridSet hwf
    have hrest1 := canPlaceFrom_gridSet (c := some c) hrest
    have IH := ih hwf1 hrest1
    simp only [insertCells]
    refine ⟨IH.1, ?_, ?_, ?_⟩
    · intro q a hq
      by_cases hqp : q = getNextPosition start i dir
      · subst hqp
        rcases letterOk_iff.mp hok with hempty | hsame
        · rw [hq] at hempty; cases hempty
        · rw [hq] at hsame
          have hac : a = c := by injection hsame
          subst hac
          exact IH.2.1 _ _ (cellAt_gridSet_self hwf hv (some a))
      · exact IH.2.1 _ _ (by rw [cellAt_gridSet_ne (Ne.symm hqp)]; exact hq)
    · intro q hq
      have hq0 : q ≠ getNextPosition start i dir := by
        have := hq 0 (by simp)
        simpa using this
      have hqrest : ∀ j, j < rest.length →
          q ≠ getNextPosition start (i + 1 + j) dir := by
        intro j hj
        have := hq (j + 1) (by simp only [List.length_cons]; omega)
        have harith : i + (j + 1) = i + 1 + j := by omega
        rwa [harith] at this
      rw [IH.2.2.1 q hqrest, cellAt_gridSet_ne (Ne.symm hq0)]
    · intro j a hj
      cases j with
      | zero =>
        have hac : c = a := by simpa using hj
        subst hac
        have h0 : cellAt (gridSet grid (getNextPosition start i dir) (some c))
            (getNextPosition start (i + 0) dir) = some c := by
          simpa using cellAt_gridSet_self hwf hv (some c)
        exact IH.2.1 _ _ h0
      | succ j =>
        have hrj : rest.get? j = some a := by simpa using hj
        have := IH.2.2.2 j a hrj
        have harith : i + 1 + j = i + (j + 1) := by omega
        rwa [harith] at this

/-!
## Tracing words and the registry
-/

theorem traceWord_eq_some_iff {grid : Grid} {ps : List Position} {w : Word} :
    traceWord grid ps = some w ↔
      ps.length = w.length ∧
        ∀ j p c, ps.get? j = some p → w.get? j = some c →
          cellAt grid p = some c := by
  induction ps generalizing w with
  | nil =>
    simp only [traceWord]
    constructor
    · rintro h
      cases h
      exact ⟨rfl, by intro j p c hp _; simp at hp⟩
    · rintro ⟨hlen, _⟩
      cases w with
      | nil => rfl
      | cons c rest => simp at hlen
  | cons p rest ih =>
    constructor
    · intro h
      simp only [traceWord] at h
      cases hc : cellAt grid p with
      | none => rw [hc] at h; simp at h
      | some c =>
        rw [hc] at h
        cases hr : traceWord grid rest with
        | none => rw [hr] at h; simp at h
        | some wr =>
          rw [hr] at h
          simp only at h
          cases h
          have hih := (ih (w := wr)).mp hr
          refine ⟨by simp [hih.1], ?_⟩
          intro j q a hq ha
          cases j with
          | zero =>
            simp only [List.get?_cons_zero] at hq ha
            cases hq; cases ha
            exact hc
          | succ j =>
            simp only [List.get?_cons_succ] at hq ha
            exact hih.2 j q a hq ha
    · rintro ⟨hlen, h⟩
      cases w with
      | nil => simp at hlen
      | cons c wr =>
        have hc : cellAt grid p = some c :=
          h 0 p c (by simp) (by simp)
        have hr : traceWord grid rest = some wr := by
          apply (ih (w := wr)).mpr
          refine ⟨by simpa using hlen, ?_⟩
          intro j q a hq ha
          exact h (j + 1) q a (by simpa using hq) (by simpa using ha)
        simp only [traceWord, hc, hr]

/-- Tracing is monotone in the grid: a grid transformation that keeps
every occupied cell keeps every successful trace. -/
theorem traceWord_mono {grid g : Grid} {ps : List Position} {w : Word}
    (hmono : ∀ q a, cellAt grid q = some a → cellAt g q = some a)
    (h : traceWord grid ps = some w) : traceWord g ps = some w := by
  rw [traceWord_eq_some_iff] at h ⊢
  exact ⟨h.1, fun j p c hp hc => hmono p _ (h.2 j p c hp hc)⟩

/-- Every entry of `mapSet m k v` is an old entry or the new pair. -/
theorem mem_mapSet {m : Registry} {k : Word} {v : List Position}
    {e : Word × List Position} (he : e ∈ mapSet m k v) :
    e ∈ m ∨ e = (k, v) := by
  unfold mapSet at he
  by_cases h : m.any (fun x => x.1 == k)
  · rw [if_pos h] at he
    rcases List.mem_map.mp he with ⟨x, hx, hxe⟩
    by_cases hk : x.1 == k
    · right; rw [if_pos hk] at hxe; exact hxe.symm
    · left; rw [if_neg hk] at hxe; exact hxe ▸ hx
  · rw [if_neg h] at he
    rcases List.mem_append.mp he with hl | hr
    · left; exact hl
    · right; simpa using hr

/-- When the key is fresh, `mapSet` appends. -/
theorem mapSet_of_fresh {m : Registry} {k : Word} {v : List Position}
    (h : m.any (fun x => x.1 == k) = false) :
    mapSet m k v = m ++ [(k, v)] := by
  unfold mapSet
  rw [if_neg (by simp [h])]

/-- Keys of the registry. -/
def regKeys (m : Registry) : List Word := m.map (fun e => e.1)

/-- `Map.set` replaces or appends; either way the key list only gains
(at most) the new key at the end. -/
theorem regKeys_mapSet (m : Registry) (k : Word) (v : List Position) :
    regKeys (mapSet m k v) =
      if m.any (fun x => x.1 == k) then regKeys m else regKeys m ++ [k] := by
  unfold mapSet regKeys
  by_cases h : m.any (fun x => x.1 == k)
  · rw [if_pos h, if_pos h, List.map_map]
    apply List.map_congr_left
    intro e he
    simp only [Function.comp_apply]
    by_cases hek : e.1 == k
    · rw [if_pos hek]
      exact (eq_of_beq hek).symm
    · rw [if_neg hek]
  · rw [if_neg h, if_neg h, List.map_append]
    rfl

theorem mem_regKeys_mapSet {m : Registry} {k a : Word} {v : List Position} :
    a ∈ regKeys (mapSet m k v) ↔ a ∈ regKeys m ∨ a = k := by
  rw [regKeys_mapSet]
  by_cases h : m.any (fun x => x.1 == k)
  · rw [if_pos h]
    constructor
    · exact Or.inl
    · rintro (ha | ha)
      · exact ha
      · rcases List.any_eq_true.mp h with ⟨x, hx, hxk⟩
        refine List.mem_map.mpr ⟨x, hx, ?_⟩
        rw [ha]
        exact eq_of_beq hxk
  · rw [if_neg h]
    simp

theorem regKeys_nodup_mapSet {m : Registry} {k : Word} {v : List Position}
    (h : (regKeys m).Nodup) : (regKeys (mapSet m k v)).Nodup := by
  rw [regKeys_mapSet]
  by_cases hk : m.any (fun x => x.1 == k)
  · rw [if_pos hk]; exact h
  · rw [if_neg hk]
    rw [List.nodup_append]
    refine ⟨h, List.nodup_singleton k, ?_⟩
    intro a ha hak
    simp only [List.mem_singleton] at hak
    rcases List.mem_map.mp ha with ⟨e, he, hek⟩
    have hany : m.any (fun x => x.1 == k) = true :=
      List.any_eq_true.mpr ⟨e, he, by rw [hek, hak]; simp⟩
    exact hk hany

/-!
## The engine invariant through the placement loop
-/

/-- The engine invariant: the grid is `size`-well-formed and every
registry entry traces, in order, to exactly its word. -/
def engineInv (ws : WordSearch) : Prop :=
  gridWF ws.size ws.grid ∧ ∀ e ∈ ws.positions, traceWord ws.grid e.2 = some e.1

instance (ws : WordSearch) : Decidable (engineInv ws) := by
  unfold engineInv; infer_instance

/-- Only feasible candidates are ever selected by the sampling loop:
`canPlaceWordAt` guards the accumulator update. -/
theorem bestCandidate_feasible {size : Nat} {grid : Grid} {word : Word} :
    ∀ {attempts : List (Direction × Position)}
      {best : Option (Nat × Position × Direction)},
      (∀ b, best = some b → canPlaceWordAt size grid word b.2.1 b.2.2 = true) →
      ∀ b, bestCandidate size grid word attempts best = some b →
        canPlaceWordAt size grid word b.2.1 b.2.2 = true := by
  intro attempts
  induction attempts with
  | nil =>
    intro best hbest b hb
    exact hbest b hb
  | cons a rest ih =>
    intro best hbest b hb
    obtain ⟨dir, pos⟩ := a
    simp only [bestCandidate] at hb
    split at hb
    next hcond =>
      refine ih ?_ b hb
      intro b1 hb1
      cases hb1
      simp only [Bool.and_eq_true] at hcond
      exact hcond.2
    next hcond =>
      exact ih hbest b hb

/-- If no sampled candidate is feasible the loop returns nothing. -/
theorem bestCandidate_none {size : Nat} {grid : Grid} {word : Word} :
    ∀ {attempts : List (Direction × Position)},
      (∀ c ∈ attempts, canPlaceWordAt size grid word c.2 c.1 = false) →
      bestCandidate size grid word attempts none = none := by
  intro attempts
  induction attempts with
  | nil => intro h; rfl
  | cons a rest ih =>
    intro h
    obtain ⟨dir, pos⟩ := a
    have hfeas : canPlaceWordAt size grid word pos dir = false :=
      h (dir, pos) (List.mem_cons_self _ _)
    simp only [bestCandidate, hfeas, Bool.and_false, if_neg Bool.false_ne_true]
    exact ih (fun c hc => h c (List.mem_cons_of_mem _ hc))

theorem positions_get_of_insertCells {grid : Grid} {start : Position}
    {dir : Direction} {w : Word} {j : Nat} {p : Position}
    (h : (insertCells grid start dir 0 w).2.get? j = some p) :
    j < w.length ∧ p = getNextPosition start j dir := by
  rw [insertCells_snd] at h
  rw [List.get?_eq_getElem?, List.getElem?_map] at h
  cases hr : (List.range w.length)[j]? with
  | none => rw [hr] at h; simp at h
  | some v =>
    have hj : j < w.length := by
      have hlen := (List.getElem?_eq_some_iff.mp hr).1
      simpa using hlen
    have hv : v = j := by
      rw [List.getElem?_range hj] at hr
      injection hr with hr
      exact hr.symm
    rw [hv] at hr
    rw [hr] at h
    refine ⟨hj, ?_⟩
    have hp : some (getNextPosition start (0 + j) dir) = some p := h
    injection hp with hp
    rw [← hp]
    congr 1
    omega

theorem mem_insertCells_snd {grid : Grid} {start : Position} {dir : Direction}
    {w : Word} {q : Position} :
    q ∈ (insertCells grid start dir 0 w).2 ↔
      ∃ j, j < w.length ∧ q = getNextPosition start j dir := by
  rw [insertCells_snd]
  simp only [List.mem_map, List.mem_range]
  constructor
  · rintro ⟨j, hj, hq⟩
    exact ⟨j, hj, by rw [← hq]; congr 1; omega⟩
  · rintro ⟨j, hj, hq⟩
    exact ⟨j, hj, by rw [hq]; congr 1; omega⟩

/-- `insertWord`, called on a feasible candidate, keeps the engine
invariant, the other fields, and every occupied cell. -/
theorem insertWord_spec {ws : WordSearch} {word : Word} {start : Position}
    {dir : Direction}
    (hinv : engineInv ws)
    (hcan : canPlaceWordAt ws.size ws.grid word start dir = true) :
    engineInv (insertWord ws word start dir) ∧
    (∀ q a, cellAt ws.grid q = some a →
      cellAt (insertWord ws word start dir).grid q = some a) := by
  have hcan0 : canPlaceFrom ws.size ws.grid start dir 0 word = true := hcan
  have spec := insertCells_spec hinv.1 hcan0
  have hmono := spec.2.1
  constructor
  · constructor
    · exact spec.1
    · intro e he
      rcases mem_mapSet he with hold | hnew
      · exact traceWord_mono hmono (hinv.2 e hold)
      · subst hnew
        apply traceWord_eq_some_iff.mpr
        refine ⟨insertCells_length_snd .., ?_⟩
        intro j p c hp hc
        rcases positions_get_of_insertCells hp with ⟨hj, hpj⟩
        have hnew := spec.2.2.2 j c hc
        have harith : getNextPosition start (0 + j) dir =
            getNextPosition start j dir := by congr 1; omega
        rw [harith] at hnew
        rw [hpj]
        exact hnew
  · exact hmono

/-- One step of the placement loop: on success, the engine invariant and
the configuration fields survive, occupied cells survive, and the key set
gains exactly the placed word. -/
theorem placeWordWithBestFit_spec {ws : WordSearch} {word : Word}
    {attempts : List (Direction × Position)} {ws1 : WordSearch}
    (hinv : engineInv ws)
    (h : placeWordWithBestFit ws word attempts = some ws1) :
    engineInv ws1 ∧ ws1.size = ws.size ∧ ws1.words = ws.words ∧
    ws1.allowDiagonal = ws.allowDiagonal ∧ ws1.fillBlanks = ws.fillBlanks ∧
    (∀ q a, cellAt ws.grid q = some a → cellAt ws1.grid q = some a) ∧
    (∀ a, a ∈ regKeys ws1.positions ↔ a ∈ regKeys ws.positions ∨ a = word) ∧
    ((regKeys ws.positions).Nodup → (regKeys ws1.positions).Nodup) := by
  unfold placeWordWithBestFit at h
  cases hbc : bestCandidate ws.size ws.grid word attempts none with
  | none => rw [hbc] at h; cases h
  | some b =>
    rw [hbc] at h
    injection h with h
    subst h
    have hfeas : canPlaceWordAt ws.size ws.grid word b.2.1 b.2.2 = true :=
      bestCandidate_feasible (fun b1 hb1 => by cases hb1) b hbc
    have hins := insertWord_spec hinv hfeas
    refine ⟨hins.1, rfl, rfl, rfl, rfl, hins.2, ?_, ?_⟩
    · intro a
      exact mem_regKeys_mapSet
    · intro hnd
      exact regKeys_nodup_mapSet hnd

/-- The whole placement loop: invariant, configuration fields, occupied
cells, and the key set becomes exactly the old keys plus the words of the
list. -/
theorem placeAll_spec {attempts : Nat → List (Direction × Position)} :
    ∀ {words : List Word} {ws : WordSearch} {k : Nat} {ws1 : WordSearch},
      placeAll attempts ws k words = .ok ws1 →
      engineInv ws →
      engineInv ws1 ∧ ws1.size = ws.size ∧ ws1.words = ws.words ∧
      ws1.allowDiagonal = ws.allowDiagonal ∧ ws1.fillBlanks = ws.fillBlanks ∧
      (∀ q a, cellAt ws.grid q = some a → cellAt ws1.grid q = some a) ∧
      (∀ a, a ∈ regKeys ws1.positions ↔ a ∈ regKeys ws.positions ∨ a ∈ words) ∧
      ((regKeys ws.positions).Nodup → (regKeys ws1.positions).Nodup) := by
  intro words
  induction words with
  | nil =>
    intro ws k ws1 h hinv
    simp only [placeAll] at h
    injection h with h
    subst h
    exact ⟨hinv, rfl, rfl, rfl, rfl, fun q a hq => hq,
      fun a => by simp, fun hnd => hnd⟩
  | cons w rest ih =>
    intro ws k ws1 h hinv
    simp only [placeAll] at h
    cases hp : placeWordWithBestFit ws w (attempts k) with
    | none => rw [hp] at h; cases h
    | some ws2 =>
      rw [hp] at h
      have hstep := placeWordWithBestFit_spec hinv hp
      have hrest := ih h hstep.1
      refine ⟨hrest.1, ?_, ?_, ?_, ?_, ?_, ?_, ?_⟩
      · rw [hrest.2.1, hstep.2.1]
      · rw [hrest.2.2.1, hstep.2.2.1]
      · rw [hrest.2.2.2.1, hstep.2.2.2.1]
      · rw [hrest.2.2.2.2.1, hstep.2.2.2.2.1]
      · intro q a hq
        exact hrest.2.2.2.2.2.1 q a (hstep.2.2.2.2.2.1 q a hq)
      · intro a
        rw [hrest.2.2.2.2.2.2.1 a]
        rw [hstep.2.2.2.2.2.2.1 a]
        simp only [List.mem_cons]
        tauto
      · intro hnd
        exact hrest.2.2.2.2.2.2.2 (hstep.2.2.2.2.2.2.2 hnd)

/-!
## The fill phase
-/

/-- What the fill loop does to one cell at `(x, y)`. -/
def fillCell (pick : Nat → Nat → Fin 26) (x y : Nat) : Cell → Cell
  | none => some (fillLetters.getD (pick x y).val 'A')
  | some c => some c

theorem fillRowFrom_get? {pick : Nat → Nat → Fin 26} {x : Nat} :
    ∀ (row : List Cell) (y j : Nat),
      (fillRowFrom pick x y row).get? j =
        (row.get? j).map (fillCell pick x (y + j)) := by
  intro row
  induction row with
  | nil => intro y j; simp [fillRowFrom]
  | cons cell rest ih =>
    intro y j
    cases j with
    | zero =>
      cases cell with
      | none => simp [fillRowFrom, fillCell]
      | some c => simp [fillRowFrom, fillCell]
    | succ j =>
      have harith : y + 1 + j = y + (j + 1) := by omega
      cases cell with
      | none =>
        simp only [fillRowFrom, List.get?_cons_succ]
        rw [ih (y + 1) j, harith]
      | some c =>
        simp only [fillRowFrom, List.get?_cons_succ]
        rw [ih (y + 1) j, harith]

theorem fillGridFrom_get? {pick : Nat → Nat → Fin 26} :
    ∀ (g : Grid) (x n : Nat),
      (fillGridFrom pick x g).get? n =
        (g.get? n).map (fun row => fillRowFrom pick (x + n) 0 row) := by
  intro g
  induction g with
  | nil => intro x n; simp [fillGridFrom]
  | cons row rest ih =>
    intro x n
    cases n with
    | zero => simp [fillGridFrom]
    | succ n =>
      simp only [fillGridFrom, List.get?_cons_succ]
      rw [ih (x + 1) n]
      have harith : x + 1 + n = x + (n + 1) := by omega
      rw [harith]

theorem cellAt_fillGridFrom {pick : Nat → Nat → Fin 26} {g : Grid}
    {q : Position} :
    cellAt (fillGridFrom pick 0 g) q =
      match (g.get? q.x).bind (fun row => row.get? q.y) with
      | none => none
      | some cell => fillCell pick q.x q.y cell := by
  unfold cellAt
  rw [fillGridFrom_get?]
  cases hx : g.get? q.x with
  | none => simp
  | some row =>
    have hms : ((Option.map (fun r => fillRowFrom pick (0 + q.x) 0 r) (some row)).bind
        (fun r => r.get? q.y)).join =
        ((fillRowFrom pick (0 + q.x) 0 row).get? q.y).join := rfl
    rw [hms, fillRowFrom_get? row 0 q.y]
    have h0x : 0 + q.x = q.x := by omega
    have h0y : 0 + q.y = q.y := by omega
    rw [h0x, h0y]
    cases hy : row.get? q.y with
    | none =>
      rw [List.get?_eq_getElem?] at hy
      simp [hy]
    | some cell =>
      rw [List.get?_eq_getElem?] at hy
      cases cell <;> simp [hy, fillCell]

theorem cellAt_fill_of_some {pick : Nat → Nat → Fin 26} {g : Grid}
    {q : Position} {a : Char} (h : cellAt g q = some a) :
    cellAt (fillGridFrom pick 0 g) q = some a := by
  rw [cellAt_fillGridFrom]
  rcases cellAt_eq_some_iff.mp h with ⟨row, hx, hy⟩
  rw [List.get?_eq_getElem?, hx]
  simp only [Option.some_bind]
  rw [List.get?_eq_getElem?, hy]
  rfl

theorem fillLetters_getD_mem (k : Fin 26) :
    fillLetters.getD k.val 'A' ∈ fillLetters := by
  have hk := k.2
  fin_cases k <;> decide

theorem cellAt_fill_cases {pick : Nat → Nat → Fin 26} {g : Grid}
    {q : Position} {a : Char}
    (h : cellAt (fillGridFrom pick 0 g) q = some a) :
    cellAt g q = some a ∨ a ∈ fillLetters := by
  rw [cellAt_fillGridFrom] at h
  cases hb : (g.get? q.x).bind (fun row => row.get? q.y) with
  | none => rw [hb] at h; cases h
  | some cell =>
    rw [hb] at h
    cases cell with
    | none =>
      right
      have : some (fillLetters.getD (pick q.x q.y).val 'A') = some a := h
      injection this with this
      rw [← this]
      exact fillLetters_getD_mem _
    | some c =>
      left
      have hc : some c = some a := h
      injection hc with hc
      unfold cellAt
      rw [hb, hc]
      rfl

theorem length_fillRowFrom {pick : Nat → Nat → Fin 26} {x : Nat} :
    ∀ (row : List Cell) (y : Nat), (fillRowFrom pick x y row).length = row.length := by
  intro row
  induction row with
  | nil => intro y; rfl
  | cons cell rest ih =>
    intro y
    cases cell <;> simp [fillRowFrom, ih (y + 1)]

theorem length_fillGridFrom {pick : Nat → Nat → Fin 26} :
    ∀ (g : Grid) (x : Nat), (fillGridFrom pick x g).length = g.length := by
  intro g
  induction g with
  | nil => intro x; rfl
  | cons row rest ih => intro x; simp [fillGridFrom, ih (x + 1)]

theorem gridWF_fillGridFrom {size : Nat} {pick : Nat → Nat → Fin 26} {g : Grid}
    (h : gridWF size g) : gridWF size (fillGridFrom pick 0 g) := by
  obtain ⟨hlen, hrows⟩ := h
  constructor
  · rw [length_fillGridFrom]; exact hlen
  · intro row hrow
    rcases List.mem_iff_get?.mp hrow with ⟨n, hn⟩
    rw [fillGridFrom_get?] at hn
    cases hg : g.get? n with
    | none => rw [hg] at hn; cases hn
    | some r =>
      rw [hg] at hn
      have : some (fillRowFrom pick (0 + n) 0 r) = some row := hn
      injection this with this
      rw [← this, length_fillRowFrom]
      exact hrows r (List.get?_mem hg)

theorem cellAt_fill_total {size : Nat} (pick : Nat → Nat → Fin 26) {g : Grid}
    {q : Position} (hwf : gridWF size g) (hv : isValidPosition size q = true) :
    ∃ a, cellAt (fillGridFrom pick 0 g) q = some a := by
  obtain ⟨hlen, hrows⟩ := hwf
  simp only [isValidPosition, Bool.and_eq_true, decide_eq_true_eq] at hv
  rw [cellAt_fillGridFrom]
  have hx : q.x < g.length := by omega
  cases hgx : g.get? q.x with
  | none =>
    rw [List.get?_eq_getElem?] at hgx
    exact absurd (List.getElem?_eq_none_iff.mp hgx) (by omega)
  | some row =>
    have hrlen : row.length = size := hrows row (List.get?_mem hgx)
    cases hgy : row.get? q.y with
    | none =>
      rw [List.get?_eq_getElem?] at hgy
      exact absurd (List.getElem?_eq_none_iff.mp hgy) (by omega)
    | some cell =>
      simp only [Option.some_bind, hgy]
      cases cell with
      | none => exact ⟨_, rfl⟩
      | some c => exact ⟨c, rfl⟩

/-!
## The empty grid and `reset`
-/

theorem cellAt_createEmptyGrid (size : Nat) (q : Position) :
    cellAt (createEmptyGrid size) q = none := by
  unfold cellAt createEmptyGrid
  cases hx : (List.replicate size (List.replicate size (none : Cell))).get? q.x with
  | none => rfl
  | some row =>
    have hrow : row = List.replicate size none :=
      List.eq_of_mem_replicate (List.get?_mem hx)
    subst hrow
    simp only [Option.some_bind]
    cases hy : (List.replicate size (none : Cell)).get? q.y with
    | none => rfl
    | some cell =>
      have : cell = none := List.eq_of_mem_replicate (List.get?_mem hy)
      subst this
      rfl

theorem engineInv_reset (ws : WordSearch) : engineInv (reset ws) := by
  constructor
  · exact gridWF_createEmptyGrid ws.size
  · intro e he
    cases he

/-!
## Letters on the grid are uppercase
-/

/-- `c` is one of the 26 uppercase ASCII letters. -/
def isUpperAlpha (c : Char) : Bool :=
  decide ('A' ≤ c) && decide (c ≤ 'Z')

theorem fillLetters_upper : ∀ c ∈ fillLetters, isUpperAlpha c = true := by decide

/-- Through the whole placement loop, grid letters stay within the checked
alphabet, provided the words placed are made of such letters. -/
theorem placeAll_content {attempts : Nat → List (Direction × Position)} :
    ∀ {words : List Word} {ws : WordSearch} {k : Nat} {ws1 : WordSearch},
      placeAll attempts ws k words = .ok ws1 →
      engineInv ws →
      (∀ q a, cellAt ws.grid q = some a → isUpperAlpha a = true) →
      (∀ w ∈ words, w.all isUpperAlpha = true) →
      (∀ q a, cellAt ws1.grid q = some a → isUpperAlpha a = true) := by
  intro words
  induction words with
  | nil =>
    intro ws k ws1 h hinv hgrid hwords
    simp only [placeAll] at h
    injection h with h
    subst h
    exact hgrid
  | cons w rest ih =>
    intro ws k ws1 h hinv hgrid hwords
    simp only [placeAll] at h
    cases hp : placeWordWithBestFit ws w (attempts k) with
    | none => rw [hp] at h; cases h
    | some ws2 =>
      rw [hp] at h
      have hstep := placeWordWithBestFit_spec hinv hp
      refine ih h hstep.1 ?_ (fun w1 hw1 => hwords w1 (List.mem_cons_of_mem _ hw1))
      unfold placeWordWithBestFit at hp
      cases hbc : bestCandidate ws.size ws.grid w (attempts k) none with
      | none => rw [hbc] at hp; cases hp
      | some b =>
        rw [hbc] at hp
        injection hp with hp
        have hfeas : canPlaceWordAt ws.size ws.grid w b.2.1 b.2.2 = true :=
          bestCandidate_feasible (fun b1 hb1 => by cases hb1) b hbc
        have hcan0 : canPlaceFrom ws.size ws.grid b.2.1 b.2.2 0 w = true := hfeas
        have spec := insertCells_spec hinv.1 hcan0
        intro q a hq
        rw [← hp] at hq
        have hq2 : cellAt (insertCells ws.grid b.2.1 b.2.2 0 w).1 q = some a := hq
        by_cases hqw : ∃ j, j < w.length ∧ q = getNextPosition b.2.1 j b.2.2
        · rcases hqw with ⟨j, hj, hqj⟩
          cases hwj : w.get? j with
          | none =>
            rw [List.get?_eq_getElem?] at hwj
            exact absurd (List.getElem?_eq_none_iff.mp hwj) (by omega)
          | some c =>
            have hcell := spec.2.2.2 j c hwj
            have harith : getNextPosition b.2.1 (0 + j) b.2.2 =
                getNextPosition b.2.1 j b.2.2 := by congr 1; omega
            rw [harith] at hcell
            rw [hqj, hcell] at hq2
            injection hq2 with hq2
            subst hq2
            have hcw : c ∈ w := List.get?_mem hwj
            have hall := hwords w (List.mem_cons_self _ _)
            exact (List.all_eq_true.mp hall) c hcw
        · push_neg at hqw
          have huntouched := spec.2.2.1 q (by
            intro j hj he
            apply hqw j hj
            rw [he]; congr 1; omega)
          rw [huntouched] at hq2
          exact hgrid q a hq2

theorem any_key_eq_true_iff {m : Registry} {k : Word} :
    m.any (fun x => x.1 == k) = true ↔ k ∈ regKeys m := by
  rw [List.any_eq_true]
  constructor
  · rintro ⟨x, hx, hxk⟩
    exact List.mem_map.mpr ⟨x, hx, eq_of_beq hxk⟩
  · intro hk
    rcases List.mem_map.mp hk with ⟨x, hx, hxk⟩
    exact ⟨x, hx, by rw [hxk]; simp⟩

/-- A position is covered when some registry entry lists it. -/
def covered (reg : Registry) (q : Position) : Prop := ∃ e ∈ reg, q ∈ e.2

/-- Through the placement loop over pairwise-distinct fresh words, every
occupied cell is listed by some registry entry. -/
theorem placeAll_coverage {attempts : Nat → List (Direction × Position)} :
    ∀ {words : List Word} {ws : WordSearch} {k : Nat} {ws1 : WordSearch},
      placeAll attempts ws k words = .ok ws1 →
      engineInv ws →
      (∀ q a, cellAt ws.grid q = some a → covered ws.positions q) →
      (∀ w ∈ words, w ∉ regKeys ws.positions) →
      words.Nodup →
      (∀ q a, cellAt ws1.grid q = some a → covered ws1.positions q) := by
  intro words
  induction words with
  | nil =>
    intro ws k ws1 h hinv hcov hfresh hnd
    simp only [placeAll] at h
    injection h with h
    subst h
    exact hcov
  | cons w rest ih =>
    intro ws k ws1 h hinv hcov hfresh hnd
    simp only [placeAll] at h
    cases hp : placeWordWithBestFit ws w (attempts k) with
    | none => rw [hp] at h; cases h
    | some ws2 =>
      rw [hp] at h
      have hstep := placeWordWithBestFit_spec hinv hp
      have hwfresh : ws.positions.any (fun x => x.1 == w) = false := by
        cases hb : ws.positions.any (fun x => x.1 == w) with
        | false => rfl
        | true =>
          exact absurd (any_key_eq_true_iff.mp hb)
            (hfresh w (List.mem_cons_self _ _))
      refine ih h hstep.1 ?_ ?_ (List.Nodup.of_cons hnd)
      · -- coverage after the insert
        unfold placeWordWithBestFit at hp
        cases hbc : bestCandidate ws.size ws.grid w (attempts k) none with
        | none => rw [hbc] at hp; cases hp
        | some b =>
          rw [hbc] at hp
          injection hp with hp
          have hfeas : canPlaceWordAt ws.size ws.grid w b.2.1 b.2.2 = true :=
            bestCandidate_feasible (fun b1 hb1 => by cases hb1) b hbc
          have hcan0 : canPlaceFrom ws.size ws.grid b.2.1 b.2.2 0 w = true := hfeas
          have spec := insertCells_spec hinv.1 hcan0
          intro q a hq
          rw [← hp] at hq
          have hq2 : cellAt (insertCells ws.grid b.2.1 b.2.2 0 w).1 q = some a := hq
          have hpos : ws2.positions =
              ws.positions ++ [(w, (insertCells ws.grid b.2.1 b.2.2 0 w).2)] := by
            rw [← hp]
            exact mapSet_of_fresh hwfresh
          by_cases hqw : ∃ j, j < w.length ∧ q = getNextPosition b.2.1 j b.2.2
          · refine ⟨(w, (insertCells ws.grid b.2.1 b.2.2 0 w).2), ?_, ?_⟩
            · rw [hpos]; simp
            · exact mem_insertCells_snd.mpr hqw
          · push_neg at hqw
            have huntouched := spec.2.2.1 q (by
              intro j hj he
              apply hqw j hj
              rw [he]; congr 1; omega)
            rw [huntouched] at hq2
            rcases hcov q a hq2 with ⟨e, he, hqe⟩
            exact ⟨e, by rw [hpos]; exact List.mem_append_left _ he, hqe⟩
      · -- remaining words still fresh
        intro w1 hw1 hkey
        rcases (hstep.2.2.2.2.2.2.1 w1).mp hkey with hold | hnew
        · exact hfresh w1 (List.mem_cons_of_mem _ hw1) hold
        · subst hnew
          exact (List.nodup_cons.mp hnd).1 hw1

/-- Destructuring a successful `generate`. -/
theorem generate_eq_ok {ws : WordSearch} {sh : List Word}
    {att : Nat → List (Direction × Position)} {pick : Nat → Nat → Fin 26}
    {ws1 : WordSearch}
    (h : generate ws sh att pick = .ok ws1) :
    ws.words.length ≠ 0 ∧
      ∃ ws2, placeAll att (reset ws) 0 sh = .ok ws2 ∧
        ws1 = (if ws2.fillBlanks then fillEmptySpaces ws2 pick else ws2) := by
  unfold generate at h
  by_cases hw : (reset ws).words.length = 0
  · rw [if_pos hw] at h; cases h
  · rw [if_neg hw] at h
    refine ⟨hw, ?_⟩
    cases hp : placeAll att (reset ws) 0 sh with
    | error e => rw [hp] at h; cases h
    | ok ws2 =>
      rw [hp] at h
      injection h with h
      exact ⟨ws2, rfl, h.symm⟩

/-- The master invariant of any state returned by a successful
`generate`. -/
theorem generate_inv {ws : WordSearch} {sh : List Word}
    {att : Nat → List (Direction × Position)} {pick : Nat → Nat → Fin 26}
    {ws1 : WordSearch}
    (h : generate ws sh att pick = .ok ws1) :
    engineInv ws1 ∧ ws1.size = ws.size ∧ ws1.words = ws.words ∧
    ws1.fillBlanks = ws.fillBlanks ∧
    (∀ a, a ∈ regKeys ws1.positions ↔ a ∈ sh) ∧
    (regKeys ws1.positions).Nodup := by
  rcases generate_eq_ok h with ⟨hw, ws2, hp, hfill⟩
  have hspec := placeAll_spec hp (engineInv_reset ws)
  have hkeys : ∀ a, a ∈ regKeys ws2.positions ↔ a ∈ sh := by
    intro a
    rw [hspec.2.2.2.2.2.2.1 a]
    simp [reset, regKeys]
  have hnd : (regKeys ws2.positions).Nodup := by
    apply hspec.2.2.2.2.2.2.2
    simp [reset, regKeys]
  by_cases hfb : ws2.fillBlanks
  · rw [if_pos hfb] at hfill
    subst hfill
    refine ⟨⟨gridWF_fillGridFrom hspec.1.1, ?_⟩, hspec.2.1, hspec.2.2.1,
      hspec.2.2.2.2.1, hkeys, hnd⟩
    intro e he
    exact traceWord_mono (fun q a hq => cellAt_fill_of_some hq) (hspec.1.2 e he)
  · rw [if_neg hfb] at hfill
    subst hfill
    exact ⟨hspec.1, hspec.2.1, hspec.2.2.1, hspec.2.2.2.2.1, hkeys, hnd⟩

/-!
## The constructor
-/

theorem make_fields {opts : WordSearchOptions} {ws : WordSearch}
    (h : WordSearch.make opts = .ok ws) :
    ws.words = opts.words.map toUpperWord ∧
    ws.allowDiagonal = opts.allowDiagonal.getD false ∧
    ws.fillBlanks = opts.fillBlanks.getD true ∧
    ws.size = opts.size.getD (calculateGridSize (opts.words.map toUpperWord)) ∧
    ws.grid = createEmptyGrid ws.size ∧
    ws.positions = [] ∧
    validateOptions ws.size ws.words = none := by
  unfold WordSearch.make at h
  replace h :
      (match validateOptions
          (opts.size.getD (calculateGridSize (opts.words.map toUpperWord)))
          (opts.words.map toUpperWord) with
        | some e => (Except.error e : Except ConfigError WordSearch)
        | none => Except.ok {
            size := opts.size.getD (calculateGridSize (opts.words.map toUpperWord)),
            grid := createEmptyGrid
              (opts.size.getD (calculateGridSize (opts.words.map toUpperWord))),
            words := opts.words.map toUpperWord, positions := [],
            allowDiagonal := opts.allowDiagonal.getD false,
            fillBlanks := opts.fillBlanks.getD true }) = Except.ok ws := h
  cases hv : validateOptions
      (opts.size.getD (calculateGridSize (opts.words.map toUpperWord)))
      (opts.words.map toUpperWord) with
  | some e => rw [hv] at h; cases h
  | none =>
    rw [hv] at h
    injection h with h
    subst h
    exact ⟨rfl, rfl, rfl, rfl, rfl, rfl, hv⟩

/-!
## Claim C9: derived grid size
-/

/-- C9: when no explicit size is given, the constructed size is
`max(ceil(total word length / 5), 10)` — stated via the unique `q` with
the ceiling property of `total / 5`.  The derivation is a pure function of
the word list (no randomness enters `calculateGridSize`). -/
theorem C9_derived_grid_size (opts : WordSearchOptions) (ws : WordSearch)
    (hnone : opts.size = none) (h : WordSearch.make opts = .ok ws) :
    ∃ q, ws.size = max q 10 ∧
      (opts.words.map List.length).sum ≤ 5 * q ∧
      5 * q < (opts.words.map List.length).sum + 5 := by
  have hf := (make_fields h).2.2.2.1
  rw [hnone] at hf
  have hsz : ws.size = calculateGridSize (opts.words.map toUpperWord) := hf
  have hlen : ((opts.words.map toUpperWord).map List.length).sum =
      (opts.words.map List.length).sum := by
    rw [List.map_map]
    congr 1
    apply List.map_congr_left
    intro w hw
    simp [toUpperWord]
  refine ⟨((opts.words.map List.length).sum + 4) / 5, ?_, by omega, by omega⟩
  have hcalc : calculateGridSize (opts.words.map toUpperWord) =
      max ((((opts.words.map toUpperWord).map List.length).sum + 4) / 5) 10 := rfl
  rw [hsz, hcalc, hlen]

/-- The sizing example of the spec: `['apple','banana','cherry','date']`,
total length 21, no explicit size. -/
def sizingExampleOptions : WordSearchOptions :=
  { size := none,
    words := [String.toList "apple", String.toList "banana",
      String.toList "cherry", String.toList "date"],
    allowDiagonal := none, fillBlanks := none }

theorem C9_derived_grid_size_witness :
    ∃ ws, WordSearch.make sizingExampleOptions = .ok ws ∧
      ∃ q, ws.size = max q 10 ∧
        (sizingExampleOptions.words.map List.length).sum ≤ 5 * q ∧
        5 * q < (sizingExampleOptions.words.map List.length).sum + 5 :=
  ⟨_, rfl, C9_derived_grid_size sizingExampleOptions _ rfl rfl⟩

/-!
## Claim C2: the empty-words check
-/

/-- C2 (code-bug evidence): with an empty words array and an explicit
size, the constructor SUCCEEDS — `validateOptions` never checks
emptiness, although the repository's own test
(`test/word-search.test.ts`, "throws error on empty words array") expects
the constructor to throw; only `generate` checks it and fails with the
"words array cannot be empty" error. -/
theorem C2_empty_words_only_generate_checks :
    (∃ ws, WordSearch.make
        { size := some 10, words := [], allowDiagonal := none,
          fillBlanks := none } = .ok ws) ∧
    (∀ ws, WordSearch.make
        { size := some 10, words := [], allowDiagonal := none,
          fillBlanks := none } = .ok ws →
      ∀ sh att pick, generate ws sh att pick = .error GenError.emptyWords) := by
  constructor
  · exact ⟨_, rfl⟩
  · intro ws h sh att pick
    have hwords : ws.words = [] := by
      have hm := (make_fields h).1
      simpa using hm
    obtain ⟨sz, gr, wds, pos, ad, fb⟩ := ws
    have hw : wds = [] := hwords
    subst hw
    rfl

/-!
## Claim C4: the feasibility test
-/

/-- C4: a candidate is feasible (`canPlaceWordAt` returns `true`) iff
every letter's cell — computed by the direction's step function — lies in
`[0,N)×[0,N)` and is empty or already holds that letter; equivalently, the
candidate is rejected exactly when some cell is out of bounds or holds a
different letter. -/
theorem C4_feasibility_iff (size : Nat) (grid : Grid) (word : Word)
    (start : Position) (dir : Direction) :
    canPlaceWordAt size grid word start dir = true ↔
      ∀ i, i < word.length →
        ((getNextPosition start i dir).x < size ∧
          (getNextPosition start i dir).y < size) ∧
          (cellAt grid (getNextPosition start i dir) = none ∨
            cellAt grid (getNextPosition start i dir) = word.get? i) := by
  unfold canPlaceWordAt
  rw [canPlaceFrom_iff]
  constructor
  · intro h i hi
    have hh := h i hi
    have harith : getNextPosition start (0 + i) dir =
        getNextPosition start i dir := by congr 1; omega
    rw [harith] at hh
    refine ⟨?_, hh.2⟩
    have hv := hh.1
    simp only [isValidPosition, Bool.and_eq_true, decide_eq_true_eq] at hv
    exact hv
  · intro h j hj
    have hh := h j hj
    have harith : getNextPosition start (0 + j) dir =
        getNextPosition start j dir := by congr 1; omega
    rw [harith]
    refine ⟨?_, hh.2⟩
    simp only [isValidPosition, Bool.and_eq_true, decide_eq_true_eq]
    exact hh.1

theorem C4_feasibility_iff_witness :
    canPlaceWordAt 2 [[some 'A', none], [none, none]] [Char.ofNat 65, Char.ofNat 66]
      ⟨0, 0⟩ Direction.horizontal = true ∧
    canPlaceWordAt 2 [[some 'A', none], [none, none]] [Char.ofNat 66]
      ⟨0, 0⟩ Direction.horizontal = false :=
  ⟨(C4_feasibility_iff 2 [[some 'A', none], [none, none]]
      [Char.ofNat 65, Char.ofNat 66] ⟨0, 0⟩ Direction.horizontal).mpr (by decide),
   by decide⟩

/-!
## Claim C5: feasibility as a hard filter in the sampling strategy
-/

theorem placeAll_append {attempts : Nat → List (Direction × Position)} :
    ∀ (l1 : List Word) {ws : WordSearch} {k : Nat} {l2 : List Word},
      placeAll attempts ws k (l1 ++ l2) =
        match placeAll attempts ws k l1 with
        | .ok ws2 => placeAll attempts ws2 (k + l1.length) l2
        | .error e => .error e := by
  intro l1
  induction l1 with
  | nil => intro ws k l2; simp [placeAll]
  | cons w rest ih =>
    intro ws k l2
    simp only [List.cons_append, placeAll]
    cases hp : placeWordWithBestFit ws w (attempts k) with
    | none => rfl
    | some ws2 =>
      show placeAll attempts ws2 (k + 1) (rest ++ l2) =
        match placeAll attempts ws2 (k + 1) rest with
        | .ok ws3 => placeAll attempts ws3 (k + (w :: rest).length) l2
        | .error e => .error e
      rw [ih]
      cases placeAll attempts ws2 (k + 1) rest with
      | ok ws3 =>
        simp only [List.length_cons]
        congr 1
        omega
      | error e => rfl

/-- C5: in the sampling strategy a candidate is committed only if
`canPlaceWordAt` accepted it (feasibility filters before score can
select); when no sampled candidate for a word is feasible, the word's
placement returns nothing and `generate` fails with the placement-failure
error naming that word. -/
theorem C5_feasibility_hard_filter :
    (∀ size grid word attempts s p d,
      bestCandidate size grid word attempts none = some (s, p, d) →
      canPlaceWordAt size grid word p d = true) ∧
    (∀ (ws : WordSearch) (word : Word) attempts,
      (∀ c ∈ attempts, canPlaceWordAt ws.size ws.grid word c.2 c.1 = false) →
      placeWordWithBestFit ws word attempts = none) ∧
    (∀ (ws : WordSearch) (pre post : List Word) (w : Word)
      (att : Nat → List (Direction × Position)) (pick : Nat → Nat → Fin 26)
      (ws2 : WordSearch),
      (reset ws).words.length ≠ 0 →
      placeAll att (reset ws) 0 pre = .ok ws2 →
      (∀ c ∈ att pre.length, canPlaceWordAt ws2.size ws2.grid w c.2 c.1 = false) →
      generate ws (pre ++ w :: post) att pick =
        .error (GenError.placementFailure w)) := by
  have hfilter : ∀ size grid word attempts s p d,
      bestCandidate size grid word attempts none = some (s, p, d) →
      canPlaceWordAt size grid word p d = true := by
    intro size grid word attempts s p d h
    exact bestCandidate_feasible (fun b1 hb1 => by cases hb1) (s, p, d) h
  have hnone : ∀ (ws : WordSearch) (word : Word) attempts,
      (∀ c ∈ attempts, canPlaceWordAt ws.size ws.grid word c.2 c.1 = false) →
      placeWordWithBestFit ws word attempts = none := by
    intro ws word attempts h
    simp only [placeWordWithBestFit, bestCandidate_none h]
  refine ⟨hfilter, hnone, ?_⟩
  intro ws pre post w att pick ws2 hne hpre hinf
  have h2 : placeWordWithBestFit ws2 w (att pre.length) = none :=
    hnone ws2 w (att pre.length) hinf
  show (if (reset ws).words.length = 0 then
      (.error .emptyWords : Except GenError WordSearch)
    else match placeAll att (reset ws) 0 (pre ++ w :: post) with
      | .error e => .error e
      | .ok ws1 => .ok (if ws1.fillBlanks then fillEmptySpaces ws1 pick else ws1)) =
    .error (GenError.placementFailure w)
  rw [if_neg hne, placeAll_append pre, hpre]
  simp only [Nat.zero_add, placeAll, h2]

theorem C5_feasibility_hard_filter_witness :
    generate
      { size := 1, grid := createEmptyGrid 1,
        words := [[Char.ofNat 65, Char.ofNat 66]], positions := [],
        allowDiagonal := false, fillBlanks := false }
      ([] ++ [Char.ofNat 65, Char.ofNat 66] :: [])
      (fun _ => [(Direction.horizontal, ⟨0, 0⟩)]) (fun _ _ => (0 : Fin 26)) =
      .error (GenError.placementFailure [Char.ofNat 65, Char.ofNat 66]) :=
  C5_feasibility_hard_filter.2.2 _ [] []
    [Char.ofNat 65, Char.ofNat 66]
    (fun _ => [(Direction.horizontal, ⟨0, 0⟩)]) (fun _ _ => (0 : Fin 26)) _
    (by decide) rfl (by decide)

theorem isUpperAlpha_toUpper_of_alpha {c : Char}
    (h : isAlphaChar (Char.toUpper c) = true) :
    isUpperAlpha (Char.toUpper c) = true := by
  by_cases hc : c.toNat ≥ 97 ∧ c.toNat ≤ 122
  · have hup : Char.toUpper c = Char.ofNat (c.toNat - 32) := by
      show (if c.toNat ≥ 97 ∧ c.toNat ≤ 122 then Char.ofNat (c.toNat - 32) else c) =
        Char.ofNat (c.toNat - 32)
      rw [if_pos hc]
    rw [hup]
    have hb : ∀ n, n < 123 → 97 ≤ n → isUpperAlpha (Char.ofNat (n - 32)) = true := by
      decide
    exact hb c.toNat (by omega) (by omega)
  · have hup : Char.toUpper c = c := by
      show (if c.toNat ≥ 97 ∧ c.toNat ≤ 122 then Char.ofNat (c.toNat - 32) else c) = c
      rw [if_neg hc]
    rw [hup] at h ⊢
    unfold isAlphaChar at h
    rw [Bool.or_eq_true] at h
    rcases h with hu | hl
    · exact hu
    · exfalso
      simp only [Bool.and_eq_true, decide_eq_true_eq] at hl
      have h97 : (97 : Nat) ≤ c.toNat := by
        have h1 := Char.le_def.mp hl.1
        have h2 := UInt32.le_def.mp h1
        have h3 := BitVec.le_def.mp h2
        exact h3
      have h122 : c.toNat ≤ (122 : Nat) := by
        have h1 := Char.le_def.mp hl.2
        have h2 := UInt32.le_def.mp h1
        have h3 := BitVec.le_def.mp h2
        exact h3
      exact hc ⟨h97, h122⟩

theorem make_words_upper {opts : WordSearchOptions} {ws : WordSearch}
    (h : WordSearch.make opts = .ok ws) :
    ∀ w ∈ ws.words, w.all isUpperAlpha = true := by
  have hf := make_fields h
  obtain ⟨hwords, _, _, _, _, _, hval⟩ := hf
  intro w hw
  unfold validateOptions at hval
  by_cases hs : ws.size < 1
  · rw [if_pos hs] at hval; cases hval
  · rw [if_neg hs] at hval
    have hwe : wordError ws.size w = none :=
      List.findSome?_eq_none_iff.mp hval w hw
    unfold wordError at hwe
    by_cases hlong : w.length > ws.size
    · rw [if_pos hlong] at hwe; cases hwe
    · rw [if_neg hlong] at hwe
      by_cases hpat : !matchesAlphaPattern w
      · rw [if_pos hpat] at hwe; cases hwe
      · have hmatch : matchesAlphaPattern w = true := by
          cases hm : matchesAlphaPattern w with
          | true => rfl
          | false => rw [hm] at hpat; simp at hpat
        unfold matchesAlphaPattern at hmatch
        have halpha := (Bool.and_eq_true .. |>.mp hmatch).2
        rw [hwords] at hw
        rcases List.mem_map.mp hw with ⟨w0, hw0, hww⟩
        apply List.all_eq_true.mpr
        intro c hc
        rw [← hww] at hc
        rcases List.mem_map.mp hc with ⟨c0, hc0, hcc⟩
        have hca : isAlphaChar c = true := by
          have hcw : c ∈ w := by rw [← hww]; exact hc
          exact List.all_eq_true.mp halpha c hcw
        rw [← hcc] at hca ⊢
        exact isUpperAlpha_toUpper_of_alpha hca

/-!
## Claim C1: the registry invariant
-/

/-- C1: after every successful `generate`, reading the grid cells at each
registered word's recorded positions, in order, yields exactly that word;
consequently two registered words that share a cell agree on its letter. -/
theorem C1_registry_traces (ws : WordSearch) (sh : List Word)
    (att : Nat → List (Direction × Position)) (pick : Nat → Nat → Fin 26)
    (ws1 : WordSearch) (h : generate ws sh att pick = .ok ws1) :
    (∀ e ∈ ws1.positions, traceWord ws1.grid e.2 = some e.1) ∧
    (∀ e1 ∈ ws1.positions, ∀ e2 ∈ ws1.positions, ∀ i j p,
      e1.2.get? i = some p → e2.2.get? j = some p →
      e1.1.get? i = e2.1.get? j) := by
  have hinv := (generate_inv h).1
  refine ⟨hinv.2, ?_⟩
  intro e1 he1 e2 he2 i j p hp1 hp2
  have h1 := traceWord_eq_some_iff.mp (hinv.2 e1 he1)
  have h2 := traceWord_eq_some_iff.mp (hinv.2 e2 he2)
  have hi : i < e1.2.length := by
    rw [List.get?_eq_getElem?] at hp1
    exact (List.getElem?_eq_some_iff.mp hp1).1
  have hj : j < e2.2.length := by
    rw [List.get?_eq_getElem?] at hp2
    exact (List.getElem?_eq_some_iff.mp hp2).1
  cases hc1 : e1.1.get? i with
  | none =>
    rw [List.get?_eq_getElem?] at hc1
    have hlen0 := List.getElem?_eq_none_iff.mp hc1
    have hlen1 := h1.1
    omega
  | some c1 =>
    cases hc2 : e2.1.get? j with
    | none =>
      rw [List.get?_eq_getElem?] at hc2
      have hlen2 := List.getElem?_eq_none_iff.mp hc2
      have := h2.1
      omega
    | some c2 =>
      have hcell1 := h1.2 i p c1 hp1 hc1
      have hcell2 := h2.2 j p c2 hp2 hc2
      rw [hcell1] at hcell2
      injection hcell2 with hcell2
      rw [hcell2]

/-- The state generated in the witness run for C1: one word `"A"` on a
1×1 grid, no fill. -/
def c1WitnessResult : WordSearch :=
  { size := 1, grid := [[some (Char.ofNat 65)]], words := [[Char.ofNat 65]],
    positions := [([Char.ofNat 65], [⟨0, 0⟩])], allowDiagonal := false,
    fillBlanks := false }

theorem C1_registry_traces_witness :
    (∀ e ∈ c1WitnessResult.positions,
      traceWord c1WitnessResult.grid e.2 = some e.1) ∧
    (∀ e1 ∈ c1WitnessResult.positions, ∀ e2 ∈ c1WitnessResult.positions,
      ∀ i j p, e1.2.get? i = some p → e2.2.get? j = some p →
        e1.1.get? i = e2.1.get? j) :=
  C1_registry_traces
    { size := 1, grid := createEmptyGrid 1, words := [[Char.ofNat 65]],
      positions := [], allowDiagonal := false, fillBlanks := false }
    [[Char.ofNat 65]]
    (fun _ => [(Direction.horizontal, ⟨0, 0⟩)]) (fun _ _ => (0 : Fin 26))
    c1WitnessResult
    rfl

/-!
## Claim C10: the registry keys after `generate`
-/

/-- C10: `generate` resets the grid and registry first, so whatever the
prior registry contained (earlier `generate` or `import` results), after a
successful run the registry keys are duplicate-free and are exactly the
distinct uppercased input words (the `words` field is the uppercased input
when the state came from the constructor). -/
theorem C10_registry_keys (opts : WordSearchOptions) (ws : WordSearch)
    (sh : List Word) (att : Nat → List (Direction × Position))
    (pick : Nat → Nat → Fin 26) (ws1 : WordSearch)
    (hwords : ws.words = opts.words.map toUpperWord)
    (hsh : sh.Perm ws.words)
    (h : generate ws sh att pick = .ok ws1) :
    (regKeys ws1.positions).Nodup ∧
    (∀ a, a ∈ regKeys ws1.positions ↔ a ∈ opts.words.map toUpperWord) := by
  have hg := generate_inv h
  refine ⟨hg.2.2.2.2.2, ?_⟩
  intro a
  rw [hg.2.2.2.2.1 a, hsh.mem_iff, hwords]

theorem C10_registry_keys_witness :
    (regKeys ([([Char.ofNat 65], [⟨0, 0⟩])] : Registry)).Nodup ∧
    (∀ a, a ∈ regKeys ([([Char.ofNat 65], [⟨0, 0⟩])] : Registry) ↔
      a ∈ ([[Char.ofNat 97], [Char.ofNat 65]] : List Word).map toUpperWord) :=
  C10_registry_keys
    { size := some 1, words := [[Char.ofNat 97], [Char.ofNat 65]],
      allowDiagonal := none, fillBlanks := none }
    { size := 1, grid := [[some (Char.ofNat 81)]],
      words := [[Char.ofNat 65], [Char.ofNat 65]],
      positions := [([Char.ofNat 90], [⟨7, 7⟩])],
      allowDiagonal := false, fillBlanks := false }
    [[Char.ofNat 65], [Char.ofNat 65]]
    (fun _ => [(Direction.horizontal, ⟨0, 0⟩)]) (fun _ _ => (0 : Fin 26))
    { size := 1, grid := [[some (Char.ofNat 65)]],
      words := [[Char.ofNat 65], [Char.ofNat 65]],
      positions := [([Char.ofNat 65], [⟨0, 0⟩])],
      allowDiagonal := false, fillBlanks := false }
    (by decide) (by decide) rfl

/-!
## Claim C8: fill behaviour and uncovered cells
-/

/-- Configuration with the word `"AB"` listed twice, `fillBlanks` off. -/
def c8Opts : WordSearchOptions :=
  { size := some 2,
    words := [[Char.ofNat 65, Char.ofNat 66], [Char.ofNat 65, Char.ofNat 66]],
    allowDiagonal := some false, fillBlanks := some false }

/-- The constructed state for `c8Opts`. -/
def c8Start : WordSearch :=
  { size := 2, grid := createEmptyGrid 2,
    words := [[Char.ofNat 65, Char.ofNat 66], [Char.ofNat 65, Char.ofNat 66]],
    positions := [], allowDiagonal := false, fillBlanks := false }

/-- The attempt oracle that places the first copy on row 0 and the second
copy on row 1. -/
def c8Att : Nat → List (Direction × Position) :=
  fun k => if k = 0 then [(Direction.horizontal, ⟨0, 0⟩)]
    else [(Direction.horizontal, ⟨1, 0⟩)]

/-- The state after that run: both rows carry `A B`, but the registry only
records the second placement. -/
def c8Result : WordSearch :=
  { size := 2,
    grid := [[some (Char.ofNat 65), some (Char.ofNat 66)],
      [some (Char.ofNat 65), some (Char.ofNat 66)]],
    words := [[Char.ofNat 65, Char.ofNat 66], [Char.ofNat 65, Char.ofNat 66]],
    positions := [([Char.ofNat 65, Char.ofNat 66], [⟨1, 0⟩, ⟨1, 1⟩])],
    allowDiagonal := false, fillBlanks := false }

/-- C8 counterexample: a constructor-built instance with the same word
twice and `fillBlanks = false` generates successfully, yet cell `(0,0)` —
covered by no registered word's positions (the duplicate's second
placement overwrote the registry entry) — is NOT empty, contradicting the
claim's `fillBlanks = false` part. -/
theorem C8_counterexample :
    WordSearch.make c8Opts = .ok c8Start ∧
    c8Start.words.Perm c8Start.words ∧
    c8Start.fillBlanks = false ∧
    generate c8Start c8Start.words c8Att (fun _ _ => (0 : Fin 26)) =
      .ok c8Result ∧
    (∀ e ∈ c8Result.positions, (⟨0, 0⟩ : Position) ∉ e.2) ∧
    cellAt c8Result.grid ⟨0, 0⟩ ≠ none := by
  refine ⟨rfl, List.Perm.refl _, rfl, rfl, by decide, by decide⟩

/-- C8 amended: after a successful `generate` on a constructor-built
instance, (a) with `fillBlanks = true` every in-bounds cell holds a single
uppercase A–Z letter; (b) with `fillBlanks = false`, PROVIDED the
uppercased input words are pairwise distinct, every cell not covered by a
registered word's positions is still empty (with duplicates a stale
earlier placement can remain on the grid, as the counterexample shows);
and (c) the fill loop never changes a cell that already holds a letter. -/
theorem C8_amended_fill (opts : WordSearchOptions) (ws : WordSearch)
    (sh : List Word) (att : Nat → List (Direction × Position))
    (pick : Nat → Nat → Fin 26) (ws1 : WordSearch)
    (hmk : WordSearch.make opts = .ok ws)
    (hsh : sh.Perm ws.words)
    (h : generate ws sh att pick = .ok ws1) :
    (ws.fillBlanks = true →
      ∀ x y, x < ws1.size → y < ws1.size →
        ∃ c, cellAt ws1.grid ⟨x, y⟩ = some c ∧ isUpperAlpha c = true) ∧
    (ws.fillBlanks = false → ws.words.Nodup →
      ∀ q, (∀ e ∈ ws1.positions, q ∉ e.2) → cellAt ws1.grid q = none) ∧
    (∀ (g : Grid) (p : Nat → Nat → Fin 26) (q : Position) (a : Char),
      cellAt g q = some a → cellAt (fillGridFrom p 0 g) q = some a) := by
  rcases generate_eq_ok h with ⟨hne, ws2, hp, hfill⟩
  have hspec := placeAll_spec hp (engineInv_reset ws)
  have hfb2 : ws2.fillBlanks = ws.fillBlanks := hspec.2.2.2.2.1
  have hsz2 : ws2.size = ws.size := hspec.2.1
  have hcontent : ∀ q a, cellAt ws2.grid q = some a → isUpperAlpha a = true := by
    apply placeAll_content hp (engineInv_reset ws)
    · intro q a hq
      rw [show (reset ws).grid = createEmptyGrid ws.size from rfl,
        cellAt_createEmptyGrid] at hq
      cases hq
    · intro w hw
      exact make_words_upper hmk w (hsh.mem_iff.mp hw)
  refine ⟨?_, ?_, fun g p q a hq => cellAt_fill_of_some hq⟩
  · intro hfb x y hx hy
    rw [hfb] at hfb2
    rw [if_pos hfb2] at hfill
    subst hfill
    have hsz1 : (fillEmptySpaces ws2 pick).size = ws2.size := rfl
    rw [hsz1] at hx hy
    have hv : isValidPosition ws2.size ⟨x, y⟩ = true := by
      simp [isValidPosition]
      omega
    rcases cellAt_fill_total pick hspec.1.1 hv with ⟨a, ha⟩
    refine ⟨a, ha, ?_⟩
    rcases cellAt_fill_cases ha with hold | hnew
    · exact hcontent _ _ hold
    · exact fillLetters_upper a hnew
  · intro hfb hnd q hq
    rw [hfb] at hfb2
    rw [if_neg (by rw [hfb2]; exact Bool.false_ne_true)] at hfill
    subst hfill
    have hcov := placeAll_coverage hp (engineInv_reset ws)
      (by
        intro q1 a hq1
        rw [show (reset ws).grid = createEmptyGrid ws.size from rfl,
          cellAt_createEmptyGrid] at hq1
        cases hq1)
      (by
        intro w hw hkey
        simp [reset, regKeys] at hkey)
      (hsh.nodup_iff.mpr hnd)
    cases hcell : cellAt ws1.grid q with
    | none => rfl
    | some a =>
      rcases hcov q a hcell with ⟨e, he, hqe⟩
      exact absurd hqe (hq e he)

/-- Options for the C8 witness run: single word `"a"`, fill on. -/
def c8WitnessOpts : WordSearchOptions :=
  { size := some 1, words := [[Char.ofNat 97]], allowDiagonal := none,
    fillBlanks := some true }

def c8WitnessStart : WordSearch :=
  { size := 1, grid := createEmptyGrid 1, words := [[Char.ofNat 65]],
    positions := [], allowDiagonal := false, fillBlanks := true }

def c8WitnessResult : WordSearch :=
  { size := 1, grid := [[some (Char.ofNat 65)]], words := [[Char.ofNat 65]],
    positions := [([Char.ofNat 65], [⟨0, 0⟩])], allowDiagonal := false,
    fillBlanks := true }

theorem C8_amended_fill_witness :
    (c8WitnessStart.fillBlanks = true →
      ∀ x y, x < c8WitnessResult.size → y < c8WitnessResult.size →
        ∃ c, cellAt c8WitnessResult.grid ⟨x, y⟩ = some c ∧
          isUpperAlpha c = true) ∧
    (c8WitnessStart.fillBlanks = false → c8WitnessStart.words.Nodup →
      ∀ q, (∀ e ∈ c8WitnessResult.positions, q ∉ e.2) →
        cellAt c8WitnessResult.grid q = none) ∧
    (∀ (g : Grid) (p : Nat → Nat → Fin 26) (q : Position) (a : Char),
      cellAt g q = some a → cellAt (fillGridFrom p 0 g) q = some a) :=
  C8_amended_fill c8WitnessOpts c8WitnessStart [[Char.ofNat 65]]
    (fun _ => [(Direction.horizontal, ⟨0, 0⟩)]) (fun _ _ => (0 : Fin 26))
    c8WitnessResult rfl (by decide) rfl

/-!
## Claim C7: export/import round trip
-/

theorem copyGrid_eq (g : Grid) : g.map (fun row => row.map (fun c => c)) = g := by
  simp

theorem copyReg_eq (m : Registry) : m.map (fun e => e) = m := by
  simp

theorem validateGrid_none {size : Nat} {grid : Grid} (hwf : gridWF size grid) :
    validateGrid size grid = none := by
  unfold validateGrid
  rw [if_neg]
  simp only [Bool.or_eq_true, bne_iff_ne, List.any_eq_true, not_or]
  refine ⟨by simp [hwf.1], ?_⟩
  simp only [not_exists]
  intro row
  rw [not_and]
  intro hrow
  simp [hwf.2 row hrow]

theorem importEntryCheck_none {grid : Grid} :
    ∀ {ps : List Position} {w : Word} {index : Nat},
      (∀ j p, ps.get? j = some p →
        ∃ c, w.get? (index + j) = some c ∧ cellAt grid p = some c) →
      importEntryCheck grid w index ps = none := by
  intro ps
  induction ps with
  | nil => intro w index h; rfl
  | cons p rest ih =>
    intro w index h
    rcases h 0 p (by simp) with ⟨c, hwc, hcell⟩
    rcases cellAt_eq_some_iff.mp hcell with ⟨row, hx, hy⟩
    rw [← List.get?_eq_getElem?] at hx hy
    simp only [importEntryCheck, hx]
    have hidx : index + 0 = index := by omega
    rw [hidx] at hwc
    rw [hy, hwc]
    simp only [jsStrEq, beq_self_eq_true, if_true]
    apply ih
    intro j q hq
    rcases h (j + 1) q (by simpa using hq) with ⟨c1, hc1, hcell1⟩
    refine ⟨c1, ?_, hcell1⟩
    have harith : index + (j + 1) = index + 1 + j := by omega
    rw [← harith]
    exact hc1

theorem importCheckAll_none {grid : Grid} :
    ∀ {m : Registry},
      (∀ e ∈ m, traceWord grid e.2 = some e.1) →
      importCheckAll grid m = none := by
  intro m
  induction m with
  | nil => intro h; rfl
  | cons e rest ih =>
    intro h
    have htr := traceWord_eq_some_iff.mp (h e (List.mem_cons_self _ _))
    have hentry : importEntryCheck grid e.1 0 e.2 = none := by
      apply importEntryCheck_none
      intro j p hp
      have hj : j < e.2.length := by
        rw [List.get?_eq_getElem?] at hp
        exact (List.getElem?_eq_some_iff.mp hp).1
      cases hc : e.1.get? j with
      | none =>
        rw [List.get?_eq_getElem?] at hc
        have := List.getElem?_eq_none_iff.mp hc
        have := htr.1
        omega
      | some c =>
        refine ⟨c, by simpa using hc, ?_⟩
        exact htr.2 j p c hp hc
    simp only [importCheckAll, hentry]
    exact ih (fun e1 he1 => h e1 (List.mem_cons_of_mem _ he1))

/-- C7: on any state produced by a successful `generate`, importing its
own export succeeds and leaves `getGrid` and `getPositions` unchanged. -/
theorem C7_export_import_roundtrip (ws : WordSearch) (sh : List Word)
    (att : Nat → List (Direction × Position)) (pick : Nat → Nat → Fin 26)
    (ws1 : WordSearch) (h : generate ws sh att pick = .ok ws1) :
    ∃ ws2, importGrid ws1 (exportData ws1).grid (exportData ws1).positions =
        .ok ws2 ∧
      getGrid ws2 = getGrid ws1 ∧ getPositions ws2 = getPositions ws1 := by
  have hinv := (generate_inv h).1
  have hgrid : (exportData ws1).grid = ws1.grid := copyGrid_eq _
  have hpos : (exportData ws1).positions = ws1.positions := copyReg_eq _
  rw [hgrid, hpos]
  unfold importGrid
  rw [validateGrid_none hinv.1, importCheckAll_none hinv.2]
  refine ⟨_, rfl, ?_, ?_⟩
  · unfold getGrid
    simp only [copyGrid_eq]
  · unfold getPositions
    simp only [copyReg_eq]

def c7Start : WordSearch :=
  { size := 1, grid := createEmptyGrid 1, words := [[Char.ofNat 66]],
    positions := [], allowDiagonal := false, fillBlanks := false }

def c7Result : WordSearch :=
  { size := 1, grid := [[some (Char.ofNat 66)]], words := [[Char.ofNat 66]],
    positions := [([Char.ofNat 66], [⟨0, 0⟩])], allowDiagonal := false,
    fillBlanks := false }

theorem C7_export_import_roundtrip_witness :
    ∃ ws2, importGrid c7Result (exportData c7Result).grid
        (exportData c7Result).positions = .ok ws2 ∧
      getGrid ws2 = getGrid c7Result ∧
      getPositions ws2 = getPositions c7Result :=
  C7_export_import_roundtrip c7Start [[Char.ofNat 66]]
    (fun _ => [(Direction.horizontal, ⟨0, 0⟩)]) (fun _ _ => (0 : Fin 26))
    c7Result rfl

/-!
## Claim C6: what `import` accepts
-/

def c6Instance : WordSearch :=
  { size := 2, grid := createEmptyGrid 2,
    words := [[Char.ofNat 65, Char.ofNat 66]], positions := [],
    allowDiagonal := false, fillBlanks := false }

def c6Grid : Grid := [[some (Char.ofNat 65), none], [none, none]]

def c6Reg : Registry := [([Char.ofNat 65, Char.ofNat 66], [⟨0, 0⟩])]

/-- C6 counterexample: the supplied registry entry for the word `"AB"`
lists a single position, so tracing it yields `"A"`, not `"AB"` — the
entry does not trace letter-by-letter to its word, yet `import` SUCCEEDS:
the check walks only the positions that are listed and never compares the
word's length, so the claim's "fails exactly when ... some entry does not
trace letter-by-letter to that word" is false. -/
theorem C6_counterexample :
    traceWord c6Grid [(⟨0, 0⟩ : Position)] = some [Char.ofNat 65] ∧
    some [Char.ofNat 65] ≠ some [Char.ofNat 65, Char.ofNat 66] ∧
    (importGrid c6Instance c6Grid c6Reg).isOk = true := by
  refine ⟨by decide, by decide, by decide⟩

theorem validateGrid_eq_none_iff {size : Nat} {grid : Grid} :
    validateGrid size grid = none ↔
      grid.length = size ∧ ∀ row ∈ grid, row.length = size := by
  constructor
  · intro h
    unfold validateGrid at h
    split at h
    · cases h
    next hc =>
      simp only [Bool.or_eq_true, bne_iff_ne, decide_eq_true_eq,
        List.any_eq_true, not_or] at hc
      obtain ⟨h1, h2⟩ := hc
      refine ⟨by omega, ?_⟩
      intro row hrow
      by_cases hr : row.length = size
      · exact hr
      · exact absurd ⟨row, hrow, hr⟩ h2
  · intro h
    exact validateGrid_none h

theorem importEntryCheck_cons_none {grid : Grid} {w : Word} {index : Nat}
    {p : Position} {rest : List Position} (hx : grid.get? p.x = none) :
    importEntryCheck grid w index (p :: rest) =
      some ImportError.typeErrorUndefinedRow := by
  simp only [importEntryCheck]
  rw [hx]

theorem importEntryCheck_cons_some {grid : Grid} {w : Word} {index : Nat}
    {p : Position} {rest : List Position} {row : List Cell}
    (hx : grid.get? p.x = some row) :
    importEntryCheck grid w index (p :: rest) =
      (if jsStrEq (row.get? p.y) (w.get? index) = true then
        importEntryCheck grid w (index + 1) rest
      else some ImportError.mismatchedPlacements) := by
  simp only [importEntryCheck]
  rw [hx]

theorem importEntryCheck_eq_none_iff {grid : Grid} {w : Word} :
    ∀ {ps : List Position} {index : Nat},
      importEntryCheck grid w index ps = none ↔
        ∀ j p, ps.get? j = some p →
          ∃ row, grid.get? p.x = some row ∧
            jsStrEq (row.get? p.y) (w.get? (index + j)) = true := by
  intro ps
  induction ps with
  | nil =>
    intro index
    constructor
    · intro h j p hp; simp at hp
    · intro h; rfl
  | cons p rest ih =>
    intro index
    cases hx : grid.get? p.x with
    | none =>
      rw [importEntryCheck_cons_none hx]
      constructor
      · intro h; cases h
      · intro h
        rcases h 0 p (by simp) with ⟨row, hrow, _⟩
        rw [hx] at hrow
        cases hrow
    | some row =>
      rw [importEntryCheck_cons_some hx]
      by_cases hj : jsStrEq (row.get? p.y) (w.get? index) = true
      · rw [if_pos hj]
        rw [ih]
        constructor
        · intro h j q hq
          cases j with
          | zero =>
            simp only [List.get?_cons_zero] at hq
            cases hq
            exact ⟨row, hx, by
              have harith : index + 0 = index := by omega
              rw [harith]
              exact hj⟩
          | succ j =>
            simp only [List.get?_cons_succ] at hq
            rcases h j q hq with ⟨row1, hrow1, hok1⟩
            refine ⟨row1, hrow1, ?_⟩
            have harith : index + (j + 1) = index + 1 + j := by omega
            rw [harith]
            exact hok1
        · intro h j q hq
          rcases h (j + 1) q (by simpa using hq) with ⟨row1, hrow1, hok1⟩
          refine ⟨row1, hrow1, ?_⟩
          have harith : index + 1 + j = index + (j + 1) := by omega
          rw [harith]
          exact hok1
      · rw [if_neg hj]
        constructor
        · intro h; cases h
        · intro h
          rcases h 0 p (by simp) with ⟨row1, hrow1, hok1⟩
          rw [hx] at hrow1
          injection hrow1 with hrow1
          subst hrow1
          have harith : index + 0 = index := by omega
          rw [harith] at hok1
          exact absurd hok1 hj

theorem importCheckAll_eq_none_iff {grid : Grid} :
    ∀ {m : Registry},
      importCheckAll grid m = none ↔
        ∀ e ∈ m, importEntryCheck grid e.1 0 e.2 = none := by
  intro m
  induction m with
  | nil => simp [importCheckAll]
  | cons e rest ih =>
    simp only [importCheckAll]
    cases he : importEntryCheck grid e.1 0 e.2 with
    | some err =>
      constructor
      · intro h; cases h
      · intro h
        have := h e (List.mem_cons_self _ _)
        rw [he] at this
        cases this
    | none =>
      rw [ih]
      constructor
      · intro h e1 he1
        rcases List.mem_cons.mp he1 with rfl | hmem
        · exact he
        · exact h e1 hmem
      · intro h e1 he1
        exact h e1 (List.mem_cons_of_mem _ he1)

/-- C6 amended: `import` succeeds iff the supplied grid is an N×N array
for the instance's configured N AND every listed position of every
registry entry reads back (as a JavaScript strict comparison, `undefined`
included) the word's character at that index — entries listing fewer
positions than the word has letters are NOT detected; on success the
instance adopts the supplied grid, registry and the grid's size.  (On
failure the error is the dimension error, the mismatched-placements error,
or — when a listed row index is out of range — a TypeError rather than the
InvalidGrid message; nothing is adopted.) -/
theorem C6_amended_import (ws : WordSearch) (grid : Grid) (reg : Registry) :
    ((importGrid ws grid reg).isOk = true ↔
      ((grid.length = ws.size ∧ ∀ row ∈ grid, row.length = ws.size) ∧
        ∀ e ∈ reg, ∀ j p, e.2.get? j = some p →
          ∃ row, grid.get? p.x = some row ∧
            jsStrEq (row.get? p.y) (e.1.get? j) = true)) ∧
    (∀ ws2, importGrid ws grid reg = .ok ws2 →
      ws2.grid = grid ∧ ws2.positions = reg ∧ ws2.size = grid.length ∧
      ws2.words = ws.words ∧ ws2.allowDiagonal = ws.allowDiagonal ∧
      ws2.fillBlanks = ws.fillBlanks) := by
  constructor
  · unfold importGrid
    cases hv : validateGrid ws.size grid with
    | some e =>
      simp only [Except.isOk, Except.toBool]
      constructor
      · intro h; cases h
      · intro h
        rw [validateGrid_eq_none_iff.mpr h.1] at hv
        cases hv
    | none =>
      cases hca : importCheckAll grid reg with
      | some e =>
        simp only [Except.isOk, Except.toBool]
        constructor
        · intro h; cases h
        · intro h
          have hnone : importCheckAll grid reg = none := by
            apply importCheckAll_eq_none_iff.mpr
            intro e1 he1
            apply importEntryCheck_eq_none_iff.mpr
            intro j p hp
            rcases h.2 e1 he1 j p hp with ⟨row, hrow, hok⟩
            refine ⟨row, hrow, ?_⟩
            have harith : (0 : Nat) + j = j := by omega
            rw [harith]
            exact hok
          rw [hnone] at hca
          cases hca
      | none =>
        simp only [Except.isOk, Except.toBool]
        constructor
        · intro _
          refine ⟨validateGrid_eq_none_iff.mp hv, ?_⟩
          intro e he j p hp
          have := importCheckAll_eq_none_iff.mp hca e he
          rcases importEntryCheck_eq_none_iff.mp this j p hp with ⟨row, hrow, hok⟩
          refine ⟨row, hrow, ?_⟩
          have harith : (0 : Nat) + j = j := by omega
          rw [harith] at hok
          exact hok
        · intro _; trivial
  · intro ws2 h
    unfold importGrid at h
    cases hv : validateGrid ws.size grid with
    | some e => rw [hv] at h; cases h
    | none =>
      rw [hv] at h
      cases hca : importCheckAll grid reg with
      | some e => rw [hca] at h; cases h
      | none =>
        rw [hca] at h
        injection h with h
        subst h
        refine ⟨copyGrid_eq grid, copyReg_eq reg, rfl, rfl, rfl, rfl⟩

theorem C6_amended_import_witness :
    (c6Grid.length = c6Instance.size ∧
      ∀ row ∈ c6Grid, row.length = c6Instance.size) ∧
    (∀ e ∈ ([([Char.ofNat 65], [⟨0, 0⟩])] : Registry), ∀ j p,
      e.2.get? j = some p →
      ∃ row, c6Grid.get? p.x = some row ∧
        jsStrEq (row.get? p.y) (e.1.get? j) = true) :=
  (C6_amended_import c6Instance c6Grid
    [([Char.ofNat 65], [⟨0, 0⟩])]).1.mp (by decide)

/-!
## Claim C3: copies versus live references
-/

/-- A 1×1 engine state at the reference level: the word `"A"` placed at
`(0,0)`; row array 0 and positions array 0 are the engine's own arrays. -/
def c3State : WordSearchRefState :=
  { size := 1, gridRows := [0], positionsMap := [([Char.ofNat 65], 0)] }

def c3Heap : JSHeap :=
  { rowArrays := [[some (Char.ofNat 65)]], posArrays := [[⟨0, 0⟩]] }

/-- C3 counterexample: `getWordPositions` hands out the engine's own
positions array (reference 0), and `getPositions` copies only the map —
its entries hold the same reference.  A caller clearing that array changes
what subsequent queries read: the claim's "subsequent queries return the
same results as if no such mutation had occurred" is false. -/
theorem C3_counterexample :
    getWordPositionsRef c3State [Char.ofNat 65] = some 0 ∧
    getPositionsRef c3State = c3State.positionsMap ∧
    readPositions c3State (writePosArr c3Heap 0 []) ≠
      readPositions c3State c3Heap := by
  refine ⟨by decide, by decide, by decide⟩

theorem getD_set_ne {α : Type} {l : List α} {i j : Nat} {a d : α}
    (h : i ≠ j) : (l.set i a).getD j d = l.getD j d := by
  rw [List.getD_eq_getElem?_getD, List.getD_eq_getElem?_getD,
    List.getElem?_set_ne h]

theorem getD_append_left {α : Type} {l1 l2 : List α} {j : Nat} {d : α}
    (h : j < l1.length) : (l1 ++ l2).getD j d = l1.getD j d := by
  rw [List.getD_eq_getElem?_getD, List.getD_eq_getElem?_getD,
    List.getElem?_append, if_pos h]

theorem allocRows_spec :
    ∀ (vs : List (List Cell)) (h : JSHeap) {rs : List Nat} {h2 : JSHeap},
      allocRows h vs = (rs, h2) →
      (∃ ext, h2.rowArrays = h.rowArrays ++ ext) ∧
      h2.posArrays = h.posArrays ∧
      ∀ r ∈ rs, h.rowArrays.length ≤ r := by
  intro vs
  induction vs with
  | nil =>
    intro h rs h2 halloc
    injection halloc with h1 h2eq
    subst h1
    subst h2eq
    exact ⟨⟨[], by simp⟩, rfl, by intro r hr; cases hr⟩
  | cons v rest ih =>
    intro h rs h2 halloc
    simp only [allocRows] at halloc
    cases hrec : allocRows { h with rowArrays := h.rowArrays ++ [v] } rest with
    | mk rs1 h3 =>
      rw [hrec] at halloc
      injection halloc with h1 h2eq
      subst h1
      subst h2eq
      have spec := ih _ hrec
      refine ⟨?_, spec.2.1, ?_⟩
      · rcases spec.1 with ⟨ext, hext⟩
        exact ⟨[v] ++ ext, by simpa using hext⟩
      · intro r hr
        rcases List.mem_cons.mp hr with rfl | hmem
        · omega
        · have := spec.2.2 r hmem
          simp only [List.length_append, List.length_cons, List.length_nil] at this
          omega

/-- C3 amended: `getGrid` IS a deep copy — it allocates fresh row arrays,
so mutating any returned row changes neither the engine-visible grid nor
the registry; but `getPositions` returns a fresh map SHARING the per-word
position arrays (its entries are the engine's references unchanged), and
`getWordPositions` returns the engine's live array itself, so mutations
through those arrays are visible to subsequent queries (see the
counterexample). -/
theorem C3_amended_copies (st : WordSearchRefState) (h : JSHeap)
    (hwf : ∀ r ∈ st.gridRows, r < h.rowArrays.length)
    (v : List Cell) (r : Nat) (rs : List Nat) (h2 : JSHeap)
    (halloc : getGridRef st h = (rs, h2)) (hr : r ∈ rs) :
    readGrid st (writeRow h2 r v) = readGrid st h ∧
    readPositions st (writeRow h2 r v) = readPositions st h ∧
    getPositionsRef st = st.positionsMap := by
  have spec := allocRows_spec (readGrid st h) h halloc
  rcases spec.1 with ⟨ext, hext⟩
  have hrbig : h.rowArrays.length ≤ r := spec.2.2 r hr
  refine ⟨?_, ?_, by simp [getPositionsRef]⟩
  · unfold readGrid readRow
    apply List.map_congr_left
    intro g hg
    have hglt : g < h.rowArrays.length := hwf g hg
    have hgr : g ≠ r := by omega
    show ((writeRow h2 r v).rowArrays).getD g [] = h.rowArrays.getD g []
    unfold writeRow
    simp only
    rw [getD_set_ne (by omega), hext, getD_append_left hglt]
  · unfold readPositions readPosArr
    apply List.map_congr_left
    intro e he
    unfold writeRow
    simp only
    rw [spec.2.1]

def c3AllocHeap : JSHeap :=
  { rowArrays := [[some (Char.ofNat 65)], [some (Char.ofNat 65)]],
    posArrays := [[⟨0, 0⟩]] }

theorem C3_amended_copies_witness :
    readGrid c3State (writeRow c3AllocHeap 1 [none]) = readGrid c3State c3Heap ∧
    readPositions c3State (writeRow c3AllocHeap 1 [none]) =
      readPositions c3State c3Heap ∧
    getPositionsRef c3State = c3State.positionsMap :=
  C3_amended_copies c3State c3Heap (by decide) [none] 1 [1] c3AllocHeap
    (by decide) (by decide)
